import Mathlib

/-!
Verification development for an impartial-game nimber evaluator.

The program under study is a memoized, bounded, cancellable Sprague-Grundy
solver for impartial games (Rust crate with `lib.rs`, `entry.rs`,
`kayles.rs`).  This file gives a shallow embedding of the solver:

* the per-position cache entries (`ProcessingData`, `EntryData`, `Entry`)
  mirror `entry.rs`;
* the evaluator state and the mutually recursive search functions
  (`get_bounded_nimber_of_part`, `try_rule_out_nimber`,
  `get_bounded_nimber_by_parts`, ...) mirror `lib.rs`, with the
  asynchronous cancel flag modelled as an oracle `flag : Nat → Bool`
  consulted at exactly the program's flag-read points, and a fuel
  parameter standing for nontermination (outer `none` = divergence or
  panic, inner `Option` = the program's own `Option` result);
* the bundled Kayles game mirrors `kayles.rs`.

On top of the embedding we define the mathematical Grundy value `gval`
for games equipped with a rank function, the cache invariant of the
solver, and prove soundness and the algebraic laws (sum-XOR law,
pair cancellation, bound consistency), as well as concrete executions
exhibiting the behaviour of the cancellation paths.
-/

namespace ImpartialSolver

set_option linter.unusedSectionVars false

/-! ## List helpers used by the embedding -/

/-- Insertion of one element into a list sorted by a numeric key.
Models one step of a sort-by-key of the Rust code. -/
def insertByKey {α : Type} (key : α → Nat) (a : α) : List α → List α
  | [] => [a]
  | b :: t => if key a ≤ key b then a :: b :: t else b :: insertByKey key a t

/-- Sorting by a numeric key; models `sort_by_cached_key` with a stable
hash (the hash itself is a parameter of the embedding). -/
def sortByKey {α : Type} (key : α → Nat) (l : List α) : List α :=
  l.foldr (insertByKey key) []

/-- Tail worker for `rustDedup`: drop elements equal to the last kept
element `prev`, keep the others. -/
def rustDedupGo {α : Type} [DecidableEq α] (prev : α) : List α → List α
  | [] => []
  | b :: t => if b = prev then rustDedupGo prev t else b :: rustDedupGo b t

/-- Rust `Vec::dedup`: remove consecutive repeated elements, keeping the
first of each run. -/
def rustDedup {α : Type} [DecidableEq α] : List α → List α
  | [] => []
  | a :: t => a :: rustDedupGo a t

/-- The read/write two-pointer scan of `remove_pairs` in `lib.rs`, on the
already sorted list: while `read + 1 < len`, equal adjacent elements are
skipped in pairs (`read += 2`), otherwise the element at `read` is kept
(swapped down to `write`); a final leftover element is kept.  Since the
swaps only write at indices `< read` after `read` advances, the elements
compared are always the original ones, so the kept subsequence is exactly
this recursion. -/
def cancelPairs {α : Type} [DecidableEq α] : List α → List α
  | a :: b :: t => if a = b then cancelPairs t else a :: cancelPairs (b :: t)
  | l => l

/-- Insertion into a sorted set of naturals kept as an ascending list;
models `sorted_vec::SortedSet::find_or_push` (insert if absent). -/
def insertSorted (n : Nat) : List Nat → List Nat
  | [] => [n]
  | a :: t => if n < a then n :: a :: t else if n = a then a :: t else a :: insertSorted n t

/-- Fuelled search for the least natural number `≥ k` not in `l`. -/
def mexGo (l : List Nat) : Nat → Nat → Nat
  | 0, k => k
  | f + 1, k => if k ∈ l then mexGo l f (k + 1) else k

/-- Minimum excludant of a list of naturals: the least natural number
not occurring in the list. -/
def mexOf (l : List Nat) : Nat := mexGo l (l.length + 1) 0

/-! ## Embedding of `entry.rs` -/

/-- Per-position in-progress state: the stack of not-yet-probed move
alternatives and the sorted set of nimbers proven impossible. -/
structure ProcessingData (G : Type) where
  unprocessed_split_moves : List (List G)
  impossible_nimbers : List Nat
  deriving DecidableEq, Repr

/-- The three-state entry lifecycle of `entry.rs`. -/
inductive EntryData (G : Type) where
  | Stub : EntryData G
  | Processing (data : ProcessingData G) : EntryData G
  | Done (nimber : Nat) : EntryData G
  deriving DecidableEq, Repr

/-- Cache entry: lifecycle data plus the position's max-nimber hint. -/
structure Entry (G : Type) where
  data : EntryData G
  max_nimber : Option Nat
  deriving DecidableEq, Repr

namespace ProcessingData

variable {G : Type}

/-- `ProcessingData::new`. -/
def new (moves : List (List G)) : ProcessingData G :=
  ⟨moves, []⟩

/-- `ProcessingData::get_smallest_possible_nimber`:
`(0..len).zip(&imp).find(|(a, b)| a != *b).map(|(a, _)| a).unwrap_or(len)`. -/
def get_smallest_possible_nimber (d : ProcessingData G) : Nat :=
  ((((List.range d.impossible_nimbers.length).zip d.impossible_nimbers).find?
      (fun ab => ab.1 != ab.2)).map Prod.fst).getD d.impossible_nimbers.length

/-- `ProcessingData::mark_impossible` via `SortedSet::find_or_push`. -/
def mark_impossible (d : ProcessingData G) (nimber : Nat) : ProcessingData G :=
  ⟨d.unprocessed_split_moves, insertSorted nimber d.impossible_nimbers⟩

/-- `ProcessingData::pop_unprocessed_move` (`Vec::pop`, i.e. from the end);
returns the popped move (if any) together with the updated data. -/
def pop_unprocessed_move (d : ProcessingData G) : Option (List G) × ProcessingData G :=
  match d.unprocessed_split_moves.getLast? with
  | none => (none, d)
  | some m => (some m, ⟨d.unprocessed_split_moves.dropLast, d.impossible_nimbers⟩)

/-- `ProcessingData::append_unprocessed_moves` (`Vec::extend`). -/
def append_unprocessed_moves (d : ProcessingData G) (other : List (List G)) : ProcessingData G :=
  ⟨d.unprocessed_split_moves ++ other, d.impossible_nimbers⟩

end ProcessingData

namespace Entry

variable {G : Type}

/-- `Entry::new`: a stub carrying the max-nimber hint. -/
def new (max_nimber : Option Nat) : Entry G :=
  ⟨EntryData.Stub, max_nimber⟩

/-- `Entry::is_stub`. -/
def is_stub (e : Entry G) : Bool :=
  match e.data with
  | EntryData.Stub => true
  | _ => false

/-- `Entry::get_nimber`: `Some` only when Done. -/
def get_nimber (e : Entry G) : Option Nat :=
  match e.data with
  | EntryData.Done n => some n
  | _ => none

/-- `Entry::get_smallest_possible_nimber`: defined only in Processing. -/
def get_smallest_possible_nimber (e : Entry G) : Option Nat :=
  match e.data with
  | EntryData.Processing d => some d.get_smallest_possible_nimber
  | _ => none

/-- `Entry::mark_impossible`: no-op outside Processing. -/
def mark_impossible (e : Entry G) (nimber : Nat) : Entry G :=
  match e.data with
  | EntryData.Processing d => ⟨EntryData.Processing (d.mark_impossible nimber), e.max_nimber⟩
  | _ => e

/-- `Entry::pop_unprocessed_move`: `none` outside Processing (the caller
unwraps, i.e. panics, in that case). -/
def pop_unprocessed_move (e : Entry G) : Option (Option (List G) × Entry G) :=
  match e.data with
  | EntryData.Processing d =>
      some ((d.pop_unprocessed_move).1, ⟨EntryData.Processing (d.pop_unprocessed_move).2, e.max_nimber⟩)
  | _ => none

/-- `Entry::append_unprocessed_moves`: no-op outside Processing. -/
def append_unprocessed_moves (e : Entry G) (other : List (List G)) : Entry G :=
  match e.data with
  | EntryData.Processing d => ⟨EntryData.Processing (d.append_unprocessed_moves other), e.max_nimber⟩
  | _ => e

end Entry

/-! ## Embedding of the `Impartial` trait and the evaluator state -/

/-- The `Impartial` trait: move generation and the optional max-nimber
hint.  The two hash functions stand for the `DefaultHasher` keys the
code sorts by (one for game positions, one for whole moves); the
embedding is parametric in them since the concrete hash is opaque. -/
structure Impartial (G : Type) where
  get_split_moves : G → List (List G)
  get_max_nimber : G → Option Nat
  hash_game : G → Nat
  hash_move : List G → Nat

/-- usize::MAX on the 64-bit targets the crate runs on. -/
def usizeMAX : Nat := 2 ^ 64 - 1

/-- Evaluator state: the cache (`DashMap<G, Entry<G>>`) as a partial map,
plus a counter of cancel-flag reads performed so far; an execution is run
against an oracle `flag : Nat → Bool` giving the value of the atomic
cancel flag at each successive read. -/
structure EvalState (G : Type) where
  cache : G → Option (Entry G)
  tick : Nat

namespace EvalState

variable {G : Type} [DecidableEq G]

/-- The fresh evaluator: empty cache. -/
def init : EvalState G := ⟨fun _ => none, 0⟩

/-- Point update of the cache (`DashMap::insert` / in-place mutation
through a guard). -/
def insert (s : EvalState G) (g : G) (e : Entry G) : EvalState G :=
  ⟨fun x => if x = g then some e else s.cache x, s.tick⟩

/-- One atomic read of the cancel flag against the oracle. -/
def readFlag (flag : Nat → Bool) (s : EvalState G) : Bool × EvalState G :=
  (flag s.tick, ⟨s.cache, s.tick + 1⟩)

end EvalState

section Solver

variable {G : Type} [DecidableEq G] (I : Impartial G) (flag : Nat → Bool)

/-- `remove_pairs` from `lib.rs`: sort by the (hashed) key, then run the
read/write two-pointer scan removing consecutive pairs of equal
elements (see `cancelPairs` for the loop correspondence). -/
def remove_pairs (v : List G) : List G :=
  cancelPairs (sortByKey I.hash_game v)

/-- The canonicalised move list `destub` stores: the split moves sorted
by their hash, deduplicated (`Vec::dedup`, adjacent equals), and then
each move's inner list reduced by `remove_pairs`. -/
def canon_moves (g : G) : List (List G) :=
  (rustDedup (sortByKey I.hash_move (I.get_split_moves g))).map (remove_pairs I)

/-- `Evaluator::destub`: transition a Stub entry to Processing, storing
the canonicalised moves.  Panics (modelled as `none`) if no entry
exists. -/
def destub (g : G) (s : EvalState G) : Option (EvalState G) :=
  match s.cache g with
  | none => none
  | some e =>
    if e.is_stub then
      some (s.insert g ⟨EntryData.Processing (ProcessingData.new (canon_moves I g)), e.max_nimber⟩)
    else some s

/-- Shared tail of `try_rule_out_nimber`: re-append the deferred moves to
the entry (through `cache.get_mut(game)?`) and return the verdict. -/
def finish_rule_out (g : G) (deferred : List (List G)) (ruled : Bool) (s : EvalState G) :
    Option (Option Bool × EvalState G) :=
  match s.cache g with
  | none => some (none, s)
  | some e => some (some ruled, s.insert g (e.append_unprocessed_moves deferred))

mutual

/-- `Evaluator::get_bounded_nimber_of_part`, entry part: ensure an entry
exists, return a Done nimber immediately, otherwise destub and run the
candidate loop. -/
def get_bounded_nimber_of_part : Nat → G → Nat → EvalState G → Option (Option Nat × EvalState G)
  | 0, _, _, _ => none
  | fuel + 1, part, bound, s =>
    let s1 := if (s.cache part).isSome then s
      else s.insert part (Entry.new (I.get_max_nimber part))
    match s1.cache part with
    | none => none
    | some e =>
      match e.get_nimber with
      | some nimber => some (some nimber, s1)
      | none =>
        match destub I part s1 with
        | none => none
        | some s2 => of_part_loop fuel part bound s2
  termination_by structural fuel _ _ _ => fuel

/-- The `loop` of `get_bounded_nimber_of_part`: check the cancel flag,
read the smallest candidate nimber, stop if it exceeds the bound, and
try to rule it out. -/
def of_part_loop : Nat → G → Nat → EvalState G → Option (Option Nat × EvalState G)
  | 0, _, _, _ => none
  | fuel + 1, part, bound, s =>
    let rf := EvalState.readFlag flag s
    if rf.1 then some (none, rf.2)
    else
      match (rf.2).cache part with
      | none => none
      | some e =>
        match e.get_smallest_possible_nimber with
        | none => none
        | some nimber =>
          if bound < nimber then some (none, rf.2)
          else
            match try_rule_out_nimber fuel part nimber rf.2 with
            | none => none
            | some (none, s2) => some (none, s2)
            | some (some true, s2) => of_part_loop fuel part bound s2
            | some (some false, s2) =>
              match s2.cache part with
              | none => none
              | some e2 => some (some nimber, s2.insert part ⟨EntryData.Done nimber, e2.max_nimber⟩)
  termination_by structural fuel _ _ _ => fuel

/-- `Evaluator::try_rule_out_nimber`, entry part: the max-nimber
shortcut, then the probing loop with an empty deferral list. -/
def try_rule_out_nimber : Nat → G → Nat → EvalState G → Option (Option Bool × EvalState G)
  | 0, _, _, _ => none
  | fuel + 1, game, nimber, s =>
    match s.cache game with
    | none => some (none, s)
    | some e =>
      match e.max_nimber with
      | some mx =>
        if mx < nimber then some (some false, s)
        else try_rule_out_loop fuel game nimber [] s
      | none => try_rule_out_loop fuel game nimber [] s
  termination_by structural fuel _ _ _ => fuel

/-- The `loop` of `try_rule_out_nimber`: pop a pending move, check the
cancel flag (on the cancel path the popped move and the deferred list
are dropped, exactly as in the code), probe the move with the candidate
as bound, record its nimber or defer it. -/
def try_rule_out_loop : Nat → G → Nat → List (List G) → EvalState G → Option (Option Bool × EvalState G)
  | 0, _, _, _, _ => none
  | fuel + 1, game, nimber, deferred, s =>
    match s.cache game with
    | none => some (none, s)
    | some e =>
      match e.pop_unprocessed_move with
      | none => none
      | some (popped, e2) =>
        let s2 := s.insert game e2
        match popped with
        | none => finish_rule_out game deferred false s2
        | some parts =>
          let rf := EvalState.readFlag flag s2
          if rf.1 then some (none, rf.2)
          else
            match get_bounded_nimber_by_parts fuel parts nimber rf.2 with
            | none => none
            | some (some move_nimber, s3) =>
              match s3.cache game with
              | none => some (none, s3)
              | some e3 =>
                let s4 := s3.insert game (e3.mark_impossible move_nimber)
                if nimber = move_nimber then finish_rule_out game deferred true s4
                else try_rule_out_loop fuel game nimber deferred s4
            | some (none, s3) => try_rule_out_loop fuel game nimber (deferred ++ [parts]) s3
  termination_by structural fuel _ _ _ _ => fuel

/-- `Evaluator::get_bounded_nimber_by_parts`: XOR of the parts' nimbers,
all but the last resolved at bound `usize::MAX`, the last at
`bound | modifier`. -/
def get_bounded_nimber_by_parts : Nat → List G → Nat → EvalState G → Option (Option Nat × EvalState G)
  | 0, _, _, _ => none
  | fuel + 1, parts, bound, s =>
    if parts.isEmpty then some (some 0, s)
    else
      match parts_head_loop fuel parts.dropLast 0 s with
      | none => none
      | some (none, s1) => some (none, s1)
      | some (some modifier, s1) =>
        match parts.getLast? with
        | none => some (none, s1)
        | some lastPart =>
          match get_bounded_nimber_of_part fuel lastPart (bound ||| modifier) s1 with
          | none => none
          | some (none, s2) => some (none, s2)
          | some (some n, s2) => some (some (modifier ^^^ n), s2)
  termination_by structural fuel _ _ _ => fuel

/-- The `for part in &parts[0..parts.len() - 1]` loop of
`get_bounded_nimber_by_parts`, accumulating the XOR modifier. -/
def parts_head_loop : Nat → List G → Nat → EvalState G → Option (Option Nat × EvalState G)
  | 0, _, _, _ => none
  | _ + 1, [], acc, s => some (some acc, s)
  | fuel + 1, p :: rest, acc, s =>
    match get_bounded_nimber_of_part fuel p usizeMAX s with
    | none => none
    | some (none, s1) => some (none, s1)
    | some (some n, s1) => parts_head_loop fuel rest (acc ^^^ n) s1
  termination_by structural fuel _ _ _ => fuel

end

/-- `Evaluator::get_bounded_nimber`: single-part query. -/
def get_bounded_nimber (fuel : Nat) (g : G) (bound : Nat) (s : EvalState G) :
    Option (Option Nat × EvalState G) :=
  get_bounded_nimber_by_parts I flag fuel [g] bound s

/-- `Evaluator::get_nimber`. -/
def get_nimber (fuel : Nat) (g : G) (s : EvalState G) : Option (Option Nat × EvalState G) :=
  get_bounded_nimber I flag fuel g usizeMAX s

/-- `Evaluator::get_nimber_by_parts`. -/
def get_nimber_by_parts (fuel : Nat) (parts : List G) (s : EvalState G) :
    Option (Option Nat × EvalState G) :=
  get_bounded_nimber_by_parts I flag fuel parts usizeMAX s

end Solver

/-- The all-false oracle: the cancel flag is never set. -/
def noCancel : Nat → Bool := fun _ => false

/-! ## The mathematical Grundy value -/

/-- Fuelled Grundy value: the mex of the XORs of the values of the parts
of each move.  With fuel exceeding the rank of the game this is the
Sprague-Grundy value. -/
def gvalF {G : Type} (I : Impartial G) : Nat → G → Nat
  | 0, _ => 0
  | f + 1, g =>
    mexOf ((I.get_split_moves g).map (fun m => (m.map (gvalF I f)).foldr (· ^^^ ·) 0))

/-- A rank function witnessing that the game is well founded (every part
of every move has smaller rank), together with the guarantee - automatic
for the Rust code, where a `Vec` is at most `usize::MAX` long - that no
position has `2^64` or more moves. -/
structure GameRank (G : Type) (I : Impartial G) where
  rank : G → Nat
  rank_lt : ∀ g, ∀ m ∈ I.get_split_moves g, ∀ p ∈ m, rank p < rank g
  moves_small : ∀ g, (I.get_split_moves g).length < 2 ^ 64

/-- The Sprague-Grundy value of a position of a ranked game. -/
def gval {G : Type} (I : Impartial G) (W : GameRank G I) (g : G) : Nat :=
  gvalF I (W.rank g + 1) g

/-- The Grundy value of a disjunctive sum of parts: XOR of the parts'
values. -/
def sumv {G : Type} (I : Impartial G) (W : GameRank G I) (m : List G) : Nat :=
  (m.map (gval I W)).foldr (· ^^^ ·) 0

/-- The list of Grundy values reachable in one move from `g`. -/
def mvals {G : Type} (I : Impartial G) (W : GameRank G I) (g : G) : List Nat :=
  (I.get_split_moves g).map (sumv I W)

/-- The contract of the `get_max_nimber` hint: a game publishing
`Some(m)` promises its Grundy value is at most `m`. -/
def MaxOK {G : Type} (I : Impartial G) (W : GameRank G I) : Prop :=
  ∀ g m, I.get_max_nimber g = some m → gval I W g ≤ m

/-! ## The cache invariant of the solver -/

/-- Strictly ascending list of naturals (the representation invariant of
`SortedSet`). -/
def SortedLT (l : List Nat) : Prop := List.Pairwise (· < ·) l

/-- Conditions every cache entry satisfies at every point of a
cancel-free run: the hint is the game's own hint; a Done nimber is the
Grundy value; the impossible set is sorted and consists of reachable
move values; pending moves are value-faithful and of smaller rank. -/
def EntryLight {G : Type} (I : Impartial G) (W : GameRank G I) (g : G) (e : Entry G) : Prop :=
  e.max_nimber = I.get_max_nimber g ∧
  (∀ n, e.data = EntryData.Done n → n = gval I W g) ∧
  (∀ d, e.data = EntryData.Processing d →
    SortedLT d.impossible_nimbers ∧
    (∀ v ∈ d.impossible_nimbers, v ∈ mvals I W g) ∧
    (∀ m ∈ d.unprocessed_split_moves, sumv I W m ∈ mvals I W g) ∧
    (∀ m ∈ d.unprocessed_split_moves, ∀ p ∈ m, W.rank p < W.rank g))

/-- Coverage: every reachable move value is either already recorded as
impossible or still witnessed by a pending move.  This is what lets the
mex search conclude when the pending stack empties. -/
def Cover {G : Type} (I : Impartial G) (W : GameRank G I) (g : G) (d : ProcessingData G) : Prop :=
  ∀ v ∈ mvals I W g, v ∈ d.impossible_nimbers ∨
    ∃ m ∈ d.unprocessed_split_moves, sumv I W m = v

/-- Global invariant, relative to a rank threshold `r`: all entries are
light, and Processing entries of rank below `r` (i.e. not on the current
recursion stack) additionally satisfy coverage. -/
def Inv {G : Type} (I : Impartial G) (W : GameRank G I) (r : Nat) (s : EvalState G) : Prop :=
  ∀ g e, s.cache g = some e → EntryLight I W g e ∧
    (W.rank g < r → ∀ d, e.data = EntryData.Processing d → Cover I W g d)

/-- Frame property: entries of rank at least `r` are untouched. -/
def Frame {G : Type} {I : Impartial G} (W : GameRank G I) (r : Nat) (s s' : EvalState G) : Prop :=
  ∀ h : G, r ≤ W.rank h → s'.cache h = s.cache h

/-- Sequential runs of `get_nimber` on the parts of a list, each
returning `Some` and handing its final state to the next. -/
inductive NimberRuns {G : Type} [DecidableEq G] (I : Impartial G) :
    EvalState G → List G → List Nat → EvalState G → Prop where
  | nil (s : EvalState G) : NimberRuns I s [] [] s
  | cons (s : EvalState G) (p : G) (n : Nat) (s' : EvalState G) (ps : List G) (ns : List Nat)
      (s'' : EvalState G) (fuel : Nat)
      (h : get_nimber I noCancel fuel p s = some (some n, s'))
      (ht : NimberRuns I s' ps ns s'') : NimberRuns I s (p :: ps) (n :: ns) s''

/-! ## Statement bundles for the soundness induction

The six mutually recursive solver functions are proved sound by one
strong induction over the fuel; the following predicates are the per-
function induction statements, all for cancel-free runs (`noCancel`). -/

section SpecBundles

variable {G : Type} [DecidableEq G] (I : Impartial G) (W : GameRank G I)

/-- Common conclusion for `get_bounded_nimber_of_part` and its loop:
invariants are preserved, only entries of rank at most that of `g` are
touched, a `Some` answer is the Grundy value and is recorded as Done,
and a `None` answer (cancel-free) means the Grundy value exceeds the
bound. -/
def PartConc (g : G) (bound : Nat) (s : EvalState G) (res : Option Nat) (s' : EvalState G) : Prop :=
  Inv I W (W.rank g + 1) s' ∧ Frame W (W.rank g + 1) s s' ∧
  (∀ n, res = some n → n = gval I W g ∧ ∃ e', s'.cache g = some e' ∧ e'.data = EntryData.Done n) ∧
  (res = none → bound < gval I W g)

/-- Induction statement for `get_bounded_nimber_of_part`. -/
def OfPartSpec (fuel : Nat) : Prop :=
  ∀ (g : G) (bound : Nat) (s : EvalState G) res s', Inv I W (W.rank g + 1) s →
    get_bounded_nimber_of_part I noCancel fuel g bound s = some (res, s') →
    PartConc I W g bound s res s'

/-- Induction statement for `of_part_loop`. -/
def OfPartLoopSpec (fuel : Nat) : Prop :=
  ∀ (g : G) (bound : Nat) (s : EvalState G) res s', Inv I W (W.rank g + 1) s →
    (∃ e d, s.cache g = some e ∧ e.data = EntryData.Processing d) →
    of_part_loop I noCancel fuel g bound s = some (res, s') →
    PartConc I W g bound s res s'

/-- Induction statement for `try_rule_out_nimber`: given the entry of
`g` is Processing with coverage and the candidate `target` is the mex of
its impossible set, the call never returns the program's `None` under
`noCancel`, keeps the entry Processing with coverage restored, touches
nothing else of rank at least that of `g`, and a `Some(false)` verdict
identifies `target` as the Grundy value. -/
def TryRuleOutSpec (fuel : Nat) : Prop :=
  ∀ (g : G) (target : Nat) (s : EvalState G) res s' e d,
    Inv I W (W.rank g) s →
    s.cache g = some e → e.data = EntryData.Processing d →
    Cover I W g d →
    (∀ k, k < target → k ∈ d.impossible_nimbers) →
    target ∉ d.impossible_nimbers →
    try_rule_out_nimber I noCancel fuel g target s = some (res, s') →
    (∃ b, res = some b) ∧
    (∃ e' d', s'.cache g = some e' ∧ e'.data = EntryData.Processing d' ∧ Cover I W g d') ∧
    Inv I W (W.rank g) s' ∧
    (∀ h : G, W.rank g ≤ W.rank h → h ≠ g → s'.cache h = s.cache h) ∧
    (res = some false → target = gval I W g)

/-- Induction statement for `try_rule_out_loop`, carrying the deferral
accumulator through the loop. -/
def TryLoopSpec (fuel : Nat) : Prop :=
  ∀ (g : G) (target : Nat) (deferred : List (List G)) (s : EvalState G) res s' e d,
    Inv I W (W.rank g) s →
    s.cache g = some e → e.data = EntryData.Processing d →
    (∀ m ∈ deferred, sumv I W m ∈ mvals I W g) →
    (∀ m ∈ deferred, ∀ p ∈ m, W.rank p < W.rank g) →
    (∀ m ∈ deferred, sumv I W m ≠ target) →
    (∀ v ∈ mvals I W g, v ∈ d.impossible_nimbers ∨
      ∃ m ∈ d.unprocessed_split_moves ++ deferred, sumv I W m = v) →
    (∀ k, k < target → k ∈ d.impossible_nimbers) →
    target ∉ d.impossible_nimbers →
    try_rule_out_loop I noCancel fuel g target deferred s = some (res, s') →
    (∃ b, res = some b) ∧
    (∃ e' d', s'.cache g = some e' ∧ e'.data = EntryData.Processing d' ∧ Cover I W g d') ∧
    Inv I W (W.rank g) s' ∧
    (∀ h : G, W.rank g ≤ W.rank h → h ≠ g → s'.cache h = s.cache h) ∧
    (res = some false → target = gval I W g)

/-- Induction statement for `get_bounded_nimber_by_parts`: relative to
any rank threshold dominating all the parts, invariants are preserved, a
`Some` answer is the XOR of the parts' Grundy values, and a `None`
answer (cancel-free) means the sum's value is not the bound. -/
def ByPartsSpec (fuel : Nat) : Prop :=
  ∀ (parts : List G) (bound : Nat) (s : EvalState G) res s' (r : Nat),
    (∀ p ∈ parts, W.rank p < r) → Inv I W r s →
    get_bounded_nimber_by_parts I noCancel fuel parts bound s = some (res, s') →
    Inv I W r s' ∧ Frame W r s s' ∧
    (∀ v, res = some v → v = sumv I W parts) ∧
    (res = none → sumv I W parts ≠ bound)

/-- Induction statement for `parts_head_loop`: the prefix loop always
answers `Some` under `noCancel` and accumulates the XOR of the parts'
values. -/
def HeadLoopSpec (fuel : Nat) : Prop :=
  ∀ (parts : List G) (acc : Nat) (s : EvalState G) res s' (r : Nat),
    (∀ p ∈ parts, W.rank p < r) → Inv I W r s →
    parts_head_loop I noCancel fuel parts acc s = some (res, s') →
    Inv I W r s' ∧ Frame W r s s' ∧ res = some (acc ^^^ sumv I W parts)

end SpecBundles

/-! ## Concrete game instances -/

/-- Moves of a small hand-crafted acyclic test game on naturals, used for
concrete executions of the solver. -/
def tgMoves : Nat → List (List Nat)
  | 0 => []
  | 1 => [[0]]
  | 2 => [[0], [1]]
  | 5 => [[1], [1, 2, 2]]
  | 8 => [[0]]
  | 9 => [[8], [1]]
  | _ => []

/-- The test game instance: no max-nimber hints, identity hash on
positions, sum hash on moves. -/
def tgImp : Impartial Nat :=
  ⟨tgMoves, fun _ => none, id, fun m => m.foldr (fun a b => a + b) 0⟩

/-- Rank certificate for the test game. -/
def tgRank : GameRank Nat tgImp where
  rank := id
  rank_lt := by
    intro g m hm p hp
    show p < g
    match g with
    | 0 => simp [tgImp, tgMoves] at hm
    | 1 =>
      simp [tgImp, tgMoves] at hm; subst hm
      simp at hp; omega
    | 2 =>
      simp [tgImp, tgMoves] at hm
      rcases hm with h | h <;> subst h <;> simp at hp <;> omega
    | 3 => simp [tgImp, tgMoves] at hm
    | 4 => simp [tgImp, tgMoves] at hm
    | 5 =>
      simp [tgImp, tgMoves] at hm
      rcases hm with h | h <;> subst h <;> simp at hp <;> rcases hp with h | h <;> omega
    | 6 => simp [tgImp, tgMoves] at hm
    | 7 => simp [tgImp, tgMoves] at hm
    | 8 =>
      simp [tgImp, tgMoves] at hm; subst hm
      simp at hp; omega
    | 9 =>
      simp [tgImp, tgMoves] at hm
      rcases hm with h | h <;> subst h <;> simp at hp <;> omega
    | n + 10 => simp [tgImp, tgMoves] at hm
  moves_small := by
    intro g
    match g with
    | 0 | 1 | 2 | 3 | 4 | 5 | 6 | 7 | 8 | 9 => simp [tgImp, tgMoves]
    | n + 10 => simp [tgImp, tgMoves]

/-- `MAX_REMOVE` from `kayles.rs`. -/
def kaylesMAXREMOVE : Nat := 2

/-- `Kayles::get_split_moves` from `kayles.rs`, on the heap size:
`for i in 1..self.kayles.min(MAX_REMOVE)` pushes the single heap
`[n - i]`, and `for i in 1..=self.kayles.saturating_sub(2).min(MAX_REMOVE)`,
`for j in 1..=((self.kayles - i) / 2)` pushes the split `[j, n - i - j]`.
Note the first range excludes its upper end (Rust `1..k`), the second
includes it (Rust `1..=k`). -/
def kayles_split_moves (n : Nat) : List (List Nat) :=
  ((List.range' 1 (n.min kaylesMAXREMOVE - 1)).map (fun i => [n - i]))
    ++ ((List.range' 1 ((n - 2).min kaylesMAXREMOVE)).map (fun i =>
          (List.range' 1 ((n - i) / 2)).map (fun j => [j, n - i - j]))).flatten

/-- The Kayles instance of the trait: `get_max_nimber` publishes the heap
size. -/
def kaylesImp : Impartial Nat :=
  ⟨kayles_split_moves, fun n => some n, id, fun m => m.foldr (fun a b => a + b) 0⟩

/-! ## Concrete cancellation scenarios -/

/-- Oracle for the stop-resume scenario: the cancel flag turns on at the
second flag read (i.e. `stop()` is called right after the computation of
position 2 starts probing its first move). -/
def flagC3 : Nat → Bool := fun i => decide (1 ≤ i)

/-- State of position 2's interrupted computation: the run of
`get_nimber` under `flagC3`, which returns the program's `None`. -/
def stoppedRun : Option (Option Nat × EvalState Nat) :=
  get_nimber tgImp flagC3 30 2 EvalState.init

/-- Resuming after the interrupted run: `resume()` clears the flag and
`get_nimber` is called again on the same evaluator. -/
def resumedRun : Option (Option Nat) :=
  (stoppedRun.bind (fun r => get_nimber tgImp noCancel 30 2 r.2)).map Prod.fst

/-- The same query on a fresh evaluator with an empty cache. -/
def freshRun : Option (Option Nat) :=
  (get_nimber tgImp noCancel 30 2 EvalState.init).map Prod.fst

/-- Oracle for the mid-`try_rule_out_nimber` cancellation scenario: the
flag turns on at the sixth read, which is the read performed right after
the second pending move of position 9 is popped. -/
def flagC4 : Nat → Bool := fun i => decide (5 ≤ i)

/-- Position 9 destubbed and ready for its first mex round: its pending
moves are `[[1], [8]]` and nothing is ruled out yet. -/
def c4Start : EvalState Nat :=
  (destub tgImp 9 (EvalState.init.insert 9 (Entry.new none))).getD EvalState.init

/-- The interrupted `try_rule_out_nimber` call on position 9 with
candidate 0, under `flagC4`, paired with position 9's entry in the final
state: move `[8]` is probed first and deferred (its nimber exceeds the
candidate), then the flag is seen set right after `[1]` is popped. -/
def c4Run : Option (Option Bool × Option (Entry Nat)) :=
  (try_rule_out_nimber tgImp flagC4 30 9 0 c4Start).map (fun r => (r.1, r.2.cache 9))

/-- Final state of a `get_nimber` run on position 1 from the empty cache
(used to chain concrete sequential runs). -/
def c1S1 : EvalState Nat :=
  ((get_nimber tgImp noCancel 30 1 EvalState.init).map Prod.snd).getD EvalState.init

/-- Final state of a `get_nimber` run on position 2 started from `c1S1`. -/
def c1S2 : EvalState Nat :=
  ((get_nimber tgImp noCancel 30 2 c1S1).map Prod.snd).getD EvalState.init

/-- An evaluator state in which position 2 has already been fully
evaluated (its entry is `Done 2`). -/
def c2Done : EvalState Nat :=
  ((get_nimber tgImp noCancel 30 2 EvalState.init).map Prod.snd).getD EvalState.init

/-- Final state of the `get_nimber_by_parts` run on `[1, 1, 2]` from the
empty cache. -/
def c8sA : EvalState Nat :=
  ((get_nimber_by_parts tgImp noCancel 30 [1, 1, 2] EvalState.init).map Prod.snd).getD
    EvalState.init

/-- Final state of the `get_nimber_by_parts` run on `[2]` from the empty
cache. -/
def c8sB : EvalState Nat :=
  ((get_nimber_by_parts tgImp noCancel 30 [2] EvalState.init).map Prod.snd).getD EvalState.init

/-- Final state of the bounded query on `[2, 1]` at bound 1 from the
empty cache. -/
def c9S : EvalState Nat :=
  ((get_bounded_nimber_by_parts tgImp noCancel 30 [2, 1] 1 EvalState.init).map Prod.snd).getD
    EvalState.init

/-! ## Bit-level arithmetic lemmas -/

theorem nat_xor_le_or (a b : Nat) : a ^^^ b ≤ a ||| b := by
  induction a using Nat.binaryRec generalizing b with
  | z => simp
  | f ba x ih =>
    cases b using Nat.binaryRec with
    | z => simp
    | f bb y =>
      rw [Nat.xor_bit, Nat.lor_bit]
      have h := ih y
      cases ba <;> cases bb <;> simp [Nat.bit_val] <;> omega

theorem nat_xor_lt_two_pow {a b n : Nat} (ha : a < 2 ^ n) (hb : b < 2 ^ n) :
    a ^^^ b < 2 ^ n :=
  Nat.bitwise_lt ha hb

theorem nat_or_lt_two_pow {a b n : Nat} (ha : a < 2 ^ n) (hb : b < 2 ^ n) :
    a ||| b < 2 ^ n :=
  Nat.bitwise_lt ha hb

theorem le_usizeMAX {n : Nat} (h : n < 2 ^ 64) : n ≤ usizeMAX := by
  unfold usizeMAX; omega

theorem nat_le_or_left (a b : Nat) : a ≤ a ||| b := by
  induction a using Nat.binaryRec generalizing b with
  | z => simp
  | f ba x ih =>
    cases b using Nat.binaryRec with
    | z => simp
    | f bb y =>
      rw [Nat.lor_bit]
      have h := ih y
      cases ba <;> cases bb <;> simp [Nat.bit_val] <;> omega

theorem usizeMAX_lor {m : Nat} (h : m < 2 ^ 64) : usizeMAX ||| m = usizeMAX := by
  have h1 : usizeMAX ||| m < 2 ^ 64 := by
    apply nat_or_lt_two_pow _ h
    unfold usizeMAX; omega
  have h2 := nat_le_or_left usizeMAX m
  unfold usizeMAX at *
  omega

/-! ## Minimum-excludant lemmas -/

theorem mexGo_spec (l : List Nat) :
    ∀ f k, (mexGo l f k ∉ l ∨ mexGo l f k = k + f) ∧
      (∀ j, k ≤ j → j < mexGo l f k → j ∈ l) ∧ k ≤ mexGo l f k ∧ mexGo l f k ≤ k + f := by
  intro f
  induction f with
  | zero =>
    intro k
    refine ⟨Or.inr rfl, ?_, Nat.le_refl _, Nat.le_refl _⟩
    intro j h1 h2
    simp [mexGo] at h2
    omega
  | succ f ih =>
    intro k
    by_cases hk : k ∈ l
    · have h := ih (k + 1)
      rw [mexGo, if_pos hk]
      refine ⟨?_, ?_, ?_, ?_⟩
      · rcases h.1 with h1 | h1
        · exact Or.inl h1
        · exact Or.inr (by omega)
      · intro j hj1 hj2
        rcases Nat.eq_or_lt_of_le hj1 with h1 | h1
        · exact h1 ▸ hk
        · exact h.2.1 j h1 hj2
      · have := h.2.2.1; omega
      · have := h.2.2.2; omega
    · rw [mexGo, if_neg hk]
      exact ⟨Or.inl hk, by intro j h1 h2; omega, Nat.le_refl k, by omega⟩

theorem mexOf_le_length (l : List Nat) : mexOf l ≤ l.length := by
  have h := mexGo_spec l (l.length + 1) 0
  by_contra hlt
  have hmem : ∀ j, j < l.length + 1 → j ∈ l := by
    intro j hj
    exact h.2.1 j (Nat.zero_le j) (by unfold mexOf at hlt; omega)
  have hsub : (List.range (l.length + 1)) ⊆ l := by
    intro j hj
    exact hmem j (List.mem_range.mp hj)
  have := (List.nodup_range (l.length + 1)).subperm hsub |>.length_le
  simp at this

theorem mexOf_not_mem (l : List Nat) : mexOf l ∉ l := by
  have h := mexGo_spec l (l.length + 1) 0
  rcases h.1 with h1 | h1
  · exact h1
  · exfalso
    have := mexOf_le_length l
    unfold mexOf at *
    omega

theorem mem_of_lt_mexOf {l : List Nat} {j : Nat} (h : j < mexOf l) : j ∈ l :=
  (mexGo_spec l (l.length + 1) 0).2.1 j (Nat.zero_le j) h

theorem mexOf_unique {l : List Nat} {n : Nat} (hn : n ∉ l) (hb : ∀ k, k < n → k ∈ l) :
    mexOf l = n := by
  rcases Nat.lt_trichotomy (mexOf l) n with h | h | h
  · exact absurd (hb _ h) (mexOf_not_mem l)
  · exact h
  · exact absurd (mem_of_lt_mexOf h) hn

/-! ## XOR folds over lists -/

/-- XOR fold of the values of a list, the shape used by `sumv`. -/
theorem foldxor_perm {α : Type} (f : α → Nat) {l l' : List α} (hp : l.Perm l') :
    (l.map f).foldr (· ^^^ ·) 0 = (l'.map f).foldr (· ^^^ ·) 0 := by
  induction hp with
  | nil => rfl
  | cons x _ ih => simp [ih]
  | swap x y t =>
    simp only [List.map_cons, List.foldr_cons]
    rw [← Nat.xor_assoc, Nat.xor_comm (f y) (f x), Nat.xor_assoc]
  | trans _ _ ih1 ih2 => rw [ih1, ih2]

theorem cancelPairs_pair {α : Type} [DecidableEq α] (b : α) (t : List α) :
    cancelPairs (b :: b :: t) = cancelPairs t := by
  simp [cancelPairs]

theorem cancelPairs_cons_ne {α : Type} [DecidableEq α] {a b : α} (hab : a ≠ b) (t : List α) :
    cancelPairs (a :: b :: t) = a :: cancelPairs (b :: t) := by
  simp [cancelPairs, hab]

theorem cancelPairs_of_short {α : Type} [DecidableEq α] {l : List α}
    (h : ∀ (a b : α) (t : List α), l = a :: b :: t → False) : cancelPairs l = l := by
  match l with
  | [] => rfl
  | [a] => rfl
  | a :: b :: t => exact absurd rfl (h a b t)

theorem foldxor_cancelPairs {α : Type} [DecidableEq α] (f : α → Nat) (l : List α) :
    ((cancelPairs l).map f).foldr (· ^^^ ·) 0 = (l.map f).foldr (· ^^^ ·) 0 := by
  induction l using cancelPairs.induct with
  | case1 b t ih =>
    rw [cancelPairs_pair, ih]
    simp only [List.map_cons, List.foldr_cons]
    rw [← Nat.xor_assoc, Nat.xor_self, Nat.zero_xor]
  | case2 a b t hab ih =>
    rw [cancelPairs_cons_ne hab]
    simp only [List.map_cons, List.foldr_cons] at ih ⊢
    rw [ih]
  | case3 l h => rw [cancelPairs_of_short h]

theorem cancelPairs_subset {α : Type} [DecidableEq α] (l : List α) : cancelPairs l ⊆ l := by
  induction l using cancelPairs.induct with
  | case1 b t ih =>
    rw [cancelPairs_pair]
    intro x hx
    exact List.mem_cons_of_mem _ (List.mem_cons_of_mem _ (ih hx))
  | case2 a b t hab ih =>
    rw [cancelPairs_cons_ne hab]
    intro x hx
    rcases List.mem_cons.mp hx with h | h
    · exact h ▸ List.mem_cons_self _ _
    · exact List.mem_cons_of_mem _ (ih h)
  | case3 l h =>
    rw [cancelPairs_of_short h]
    exact fun x hx => hx

/-! ## Sorting and deduplication lemmas -/

theorem insertByKey_perm {α : Type} (key : α → Nat) (a : α) (l : List α) :
    (insertByKey key a l).Perm (a :: l) := by
  induction l with
  | nil => exact List.Perm.refl _
  | cons b t ih =>
    rw [insertByKey]
    by_cases h : key a ≤ key b
    · rw [if_pos h]
    · rw [if_neg h]
      exact (List.Perm.cons b ih).trans (List.Perm.swap a b t)

theorem sortByKey_perm {α : Type} (key : α → Nat) (l : List α) :
    (sortByKey key l).Perm l := by
  induction l with
  | nil => exact List.Perm.refl _
  | cons a t ih =>
    unfold sortByKey at ih ⊢
    simp only [List.foldr_cons]
    exact (insertByKey_perm key a _).trans (List.Perm.cons a ih)

theorem mem_insertByKey {α : Type} {key : α → Nat} {a x : α} {l : List α} :
    x ∈ insertByKey key a l ↔ x = a ∨ x ∈ l := by
  constructor
  · intro h
    have := (insertByKey_perm key a l).mem_iff.mp h
    simpa using this
  · intro h
    apply (insertByKey_perm key a l).mem_iff.mpr
    simpa using h

theorem insertByKey_sorted {α : Type} {key : α → Nat} {a : α} {l : List α}
    (h : l.Pairwise (fun x y => key x ≤ key y)) :
    (insertByKey key a l).Pairwise (fun x y => key x ≤ key y) := by
  induction l with
  | nil => simp [insertByKey]
  | cons b t ih =>
    rw [insertByKey]
    rcases List.pairwise_cons.mp h with ⟨hb, ht⟩
    by_cases hab : key a ≤ key b
    · rw [if_pos hab]
      refine List.pairwise_cons.mpr ⟨?_, h⟩
      intro x hx
      rcases List.mem_cons.mp hx with h1 | h1
      · exact h1 ▸ hab
      · exact Nat.le_trans hab (hb x h1)
    · rw [if_neg hab]
      refine List.pairwise_cons.mpr ⟨?_, ih ht⟩
      intro x hx
      rcases mem_insertByKey.mp hx with h1 | h1
      · exact h1 ▸ Nat.le_of_lt (Nat.lt_of_not_le hab)
      · exact hb x h1

theorem sortByKey_sorted {α : Type} (key : α → Nat) (l : List α) :
    (sortByKey key l).Pairwise (fun x y => key x ≤ key y) := by
  induction l with
  | nil => simp [sortByKey]
  | cons a t ih =>
    unfold sortByKey at ih ⊢
    simp only [List.foldr_cons]
    exact insertByKey_sorted ih

theorem rustDedupGo_subset {α : Type} [DecidableEq α] (prev : α) (t : List α) :
    rustDedupGo prev t ⊆ t := by
  induction t generalizing prev with
  | nil => exact fun x hx => hx
  | cons b t ih =>
    rw [rustDedupGo]
    by_cases h : b = prev
    · rw [if_pos h]
      exact fun x hx => List.mem_cons_of_mem _ (ih prev hx)
    · rw [if_neg h]
      intro x hx
      rcases List.mem_cons.mp hx with h1 | h1
      · exact h1 ▸ List.mem_cons_self _ _
      · exact List.mem_cons_of_mem _ (ih b h1)

theorem mem_rustDedupGo {α : Type} [DecidableEq α] {prev x : α} {t : List α}
    (hx : x ∈ t) : x ∈ rustDedupGo prev t ∨ x = prev := by
  induction t generalizing prev with
  | nil => cases hx
  | cons b t ih =>
    rw [rustDedupGo]
    by_cases h : b = prev
    · rw [if_pos h]
      rcases List.mem_cons.mp hx with h1 | h1
      · exact Or.inr (h1.trans h)
      · exact ih h1
    · rw [if_neg h]
      rcases List.mem_cons.mp hx with h1 | h1
      · exact Or.inl (h1 ▸ List.mem_cons_self _ _)
      · rcases @ih b h1 with h2 | h2
        · exact Or.inl (List.mem_cons_of_mem _ h2)
        · exact Or.inl (h2 ▸ List.mem_cons_self _ _)

theorem mem_rustDedup {α : Type} [DecidableEq α] {x : α} {l : List α} :
    x ∈ rustDedup l ↔ x ∈ l := by
  cases l with
  | nil => simp [rustDedup]
  | cons a t =>
    rw [rustDedup]
    constructor
    · intro h
      rcases List.mem_cons.mp h with h1 | h1
      · exact h1 ▸ List.mem_cons_self _ _
      · exact List.mem_cons_of_mem _ (rustDedupGo_subset a t h1)
    · intro h
      rcases List.mem_cons.mp h with h1 | h1
      · exact h1 ▸ List.mem_cons_self _ _
      · rcases @mem_rustDedupGo _ _ a _ _ h1 with h2 | h2
        · exact List.mem_cons_of_mem _ h2
        · exact h2 ▸ List.mem_cons_self _ _

theorem rustDedupGo_nodup {α : Type} [DecidableEq α] {key : α → Nat} :
    ∀ (t : List α) (prev : α),
      (prev :: t).Pairwise (fun x y => key x ≤ key y) →
      (∀ x ∈ prev :: t, ∀ y ∈ prev :: t, key x = key y → x = y) →
      (rustDedupGo prev t).Nodup ∧ prev ∉ rustDedupGo prev t := by
  intro t
  induction t with
  | nil => intro prev _ _; simp [rustDedupGo]
  | cons b t ih =>
    intro prev hs hinj
    rcases List.pairwise_cons.mp hs with ⟨hpb, hbt⟩
    rw [rustDedupGo]
    by_cases h : b = prev
    · rw [if_pos h]
      apply ih prev
      · refine List.pairwise_cons.mpr ⟨?_, (List.pairwise_cons.mp hbt).2⟩
        intro x hx
        exact hpb x (List.mem_cons_of_mem _ hx)
      · intro x hx y hy hk
        have hlift : ∀ z : α, z ∈ prev :: t → z ∈ prev :: b :: t := by
          intro z hz
          rcases List.mem_cons.mp hz with h1 | h1
          · exact h1 ▸ List.mem_cons_self _ _
          · exact List.mem_cons_of_mem _ (List.mem_cons_of_mem _ h1)
        exact hinj x (hlift x hx) y (hlift y hy) hk
    · rw [if_neg h]
      have hb : (rustDedupGo b t).Nodup ∧ b ∉ rustDedupGo b t := by
        apply ih b hbt
        intro x hx y hy
        exact hinj x (List.mem_cons_of_mem _ hx) y (List.mem_cons_of_mem _ hy)
      refine ⟨List.nodup_cons.mpr ⟨hb.2, hb.1⟩, ?_⟩
      intro hmem
      rcases List.mem_cons.mp hmem with h1 | h1
      · exact h (h1.symm)
      · have hxt : prev ∈ t := rustDedupGo_subset b t h1
        have h1le : key prev ≤ key b := hpb b (List.mem_cons_self _ _)
        have h2le : key b ≤ key prev := (List.pairwise_cons.mp hbt).1 prev hxt
        have : b = prev := hinj b (List.mem_cons_of_mem _ (List.mem_cons_self _ _)) prev
          (List.mem_cons_self _ _) (Nat.le_antisymm h2le h1le)
        exact h this

theorem rustDedup_nodup {α : Type} [DecidableEq α] {key : α → Nat} {l : List α}
    (hs : l.Pairwise (fun x y => key x ≤ key y))
    (hinj : ∀ x ∈ l, ∀ y ∈ l, key x = key y → x = y) :
    (rustDedup l).Nodup := by
  cases l with
  | nil => simp [rustDedup]
  | cons a t =>
    rw [rustDedup]
    have h := @rustDedupGo_nodup _ _ key t a hs hinj
    exact List.nodup_cons.mpr ⟨h.2, h.1⟩

/-! ## Sorted-set lemmas for the impossible-nimber lists -/

theorem mem_insertSorted {n x : Nat} {l : List Nat} :
    x ∈ insertSorted n l ↔ x = n ∨ x ∈ l := by
  induction l with
  | nil => simp [insertSorted]
  | cons a t ih =>
    rw [insertSorted]
    by_cases h1 : n < a
    · rw [if_pos h1]
      simp only [List.mem_cons]
    · rw [if_neg h1]
      by_cases h2 : n = a
      · rw [if_pos h2]
        subst h2
        simp only [List.mem_cons]
        tauto
      · rw [if_neg h2]
        simp only [List.mem_cons, ih]
        tauto

theorem insertSorted_sorted {n : Nat} {l : List Nat} (h : SortedLT l) :
    SortedLT (insertSorted n l) := by
  unfold SortedLT at *
  induction l with
  | nil => simp [insertSorted]
  | cons a t ih =>
    rcases List.pairwise_cons.mp h with ⟨ha, ht⟩
    rw [insertSorted]
    by_cases h1 : n < a
    · rw [if_pos h1]
      refine List.pairwise_cons.mpr ⟨?_, h⟩
      intro x hx
      rcases List.mem_cons.mp hx with h2 | h2
      · omega
      · have := ha x h2; omega
    · rw [if_neg h1]
      by_cases h2 : n = a
      · rw [if_pos h2]; exact h
      · rw [if_neg h2]
        refine List.pairwise_cons.mpr ⟨?_, ih ht⟩
        intro x hx
        rcases mem_insertSorted.mp hx with h3 | h3
        · omega
        · exact ha x h3

/-! ## The first-mismatch computation of `get_smallest_possible_nimber` -/

theorem zipfind_spec :
    ∀ (l : List Nat) (k : Nat), l.Pairwise (· < ·) → (∀ x ∈ l, k ≤ x) →
      (∀ ab : Nat × Nat, ((List.range' k l.length).zip l).find? (fun x => x.1 != x.2) = some ab →
        k ≤ ab.1 ∧ ab.1 ∉ l ∧ ∀ j, k ≤ j → j < ab.1 → j ∈ l) ∧
      (((List.range' k l.length).zip l).find? (fun x => x.1 != x.2) = none →
        (k + l.length) ∉ l ∧ ∀ j, k ≤ j → j < k + l.length → j ∈ l) := by
  intro l
  induction l with
  | nil =>
    intro k _ _
    constructor
    · intro ab hab; simp at hab
    · intro _
      constructor
      · simp
      · intro j h1 h2; simp at h2; omega
  | cons a t ih =>
    intro k hs hlb
    rcases List.pairwise_cons.mp hs with ⟨hat, ht⟩
    have hka : k ≤ a := hlb a (List.mem_cons_self _ _)
    simp only [List.length_cons, List.range'_succ, List.zip_cons_cons]
    by_cases hk : k = a
    · subst hk
      rw [List.find?_cons_of_neg _ (by simp)]
      have ihk := ih (k + 1) ht (fun x hx => hat x hx)
      constructor
      · intro ab hab
        rcases ihk.1 ab hab with ⟨h1, h2, h3⟩
        refine ⟨Nat.le_of_succ_le h1, ?_, ?_⟩
        · intro hmem
          rcases List.mem_cons.mp hmem with h4 | h4
          · omega
          · exact h2 h4
        · intro j hj1 hj2
          rcases Nat.eq_or_lt_of_le hj1 with h4 | h4
          · exact h4 ▸ List.mem_cons_self _ _
          · exact List.mem_cons_of_mem _ (h3 j h4 hj2)
      · intro hnone
        rcases ihk.2 hnone with ⟨h1, h2⟩
        have hlen : k + (t.length + 1) = (k + 1) + t.length := by omega
        constructor
        · intro hmem
          rcases List.mem_cons.mp hmem with h4 | h4
          · omega
          · exact h1 (hlen ▸ h4)
        · intro j hj1 hj2
          rcases Nat.eq_or_lt_of_le hj1 with h4 | h4
          · exact h4 ▸ List.mem_cons_self _ _
          · exact List.mem_cons_of_mem _ (h2 j h4 (by omega))
    · rw [List.find?_cons_of_pos _ (by simp; omega)]
      constructor
      · intro ab hab
        simp at hab
        subst hab
        refine ⟨Nat.le_refl k, ?_, ?_⟩
        · intro hmem
          rcases List.mem_cons.mp hmem with h4 | h4
          · exact hk h4
          · have := hat k h4; omega
        · intro j h1 h2; omega
      · intro hnone; cases hnone

theorem smallest_spec {G : Type} {d : ProcessingData G} (h : SortedLT d.impossible_nimbers) :
    d.get_smallest_possible_nimber ∉ d.impossible_nimbers ∧
      ∀ j, j < d.get_smallest_possible_nimber → j ∈ d.impossible_nimbers := by
  have hz := zipfind_spec d.impossible_nimbers 0 h (fun x _ => Nat.zero_le x)
  unfold ProcessingData.get_smallest_possible_nimber
  rw [List.range_eq_range']
  cases hfind : ((List.range' 0 d.impossible_nimbers.length).zip d.impossible_nimbers).find?
      (fun x => x.1 != x.2) with
  | none =>
    rcases hz.2 hfind with ⟨h1, h2⟩
    simp only [Option.map_none', Option.getD_none]
    exact ⟨by simpa using h1, fun j hj => h2 j (Nat.zero_le j) (by omega)⟩
  | some ab =>
    rcases hz.1 ab hfind with ⟨_, h2, h3⟩
    simp only [Option.map_some', Option.getD_some]
    exact ⟨h2, fun j hj => h3 j (Nat.zero_le j) hj⟩

/-! ## Grundy-value lemmas -/

section GrundyLemmas

variable {G : Type} [DecidableEq G] {I : Impartial G} (W : GameRank G I)

set_option linter.unusedSectionVars false

theorem gvalF_stable : ∀ f g, W.rank g < f → gvalF I f g = gvalF I (W.rank g + 1) g := by
  intro f
  induction f using Nat.strong_induction_on with
  | _ f ih =>
    intro g hf
    match f, hf with
    | f' + 1, hf =>
      show gvalF I (f' + 1) g = gvalF I (W.rank g + 1) g
      rw [gvalF, gvalF]
      congr 1
      apply List.map_congr_left
      intro m hm
      congr 1
      apply List.map_congr_left
      intro p hp
      have hpg := W.rank_lt g m hm p hp
      have h1 : gvalF I f' p = gvalF I (W.rank p + 1) p := ih f' (by omega) p (by omega)
      have h2 : gvalF I (W.rank g) p = gvalF I (W.rank p + 1) p :=
        ih (W.rank g) (by omega) p hpg
      rw [h1, h2]

theorem gval_eq (g : G) : gval I W g = mexOf (mvals I W g) := by
  unfold gval mvals sumv
  rw [gvalF]
  congr 1
  apply List.map_congr_left
  intro m hm
  congr 1
  apply List.map_congr_left
  intro p hp
  exact gvalF_stable W (W.rank g) p (W.rank_lt g m hm p hp)

theorem gval_not_mem_mvals (g : G) : gval I W g ∉ mvals I W g := by
  rw [gval_eq]
  exact mexOf_not_mem _

theorem mem_mvals_of_lt_gval {g : G} {k : Nat} (h : k < gval I W g) : k ∈ mvals I W g := by
  rw [gval_eq] at h
  exact mem_of_lt_mexOf h

theorem gval_unique {g : G} {n : Nat} (hn : n ∉ mvals I W g)
    (hb : ∀ k, k < n → k ∈ mvals I W g) : n = gval I W g := by
  rw [gval_eq]
  exact (mexOf_unique hn hb).symm

theorem gval_lt_two64 (g : G) : gval I W g < 2 ^ 64 := by
  have h1 := mexOf_le_length (mvals I W g)
  have h2 : (mvals I W g).length = (I.get_split_moves g).length := by
    unfold mvals; simp
  have h3 := W.moves_small g
  rw [gval_eq]
  omega

theorem sumv_nil : sumv I W ([] : List G) = 0 := rfl

theorem sumv_cons (p : G) (t : List G) : sumv I W (p :: t) = gval I W p ^^^ sumv I W t := rfl

theorem sumv_append (l1 l2 : List G) :
    sumv I W (l1 ++ l2) = sumv I W l1 ^^^ sumv I W l2 := by
  induction l1 with
  | nil => rw [sumv_nil]; simp
  | cons p t ih =>
    rw [List.cons_append, sumv_cons, sumv_cons, ih, Nat.xor_assoc]

theorem sumv_concat (l : List G) (x : G) :
    sumv I W (l ++ [x]) = sumv I W l ^^^ gval I W x := by
  rw [sumv_append, sumv_cons, sumv_nil, Nat.xor_zero]

theorem sumv_lt_two64 (m : List G) : sumv I W m < 2 ^ 64 := by
  induction m with
  | nil => rw [sumv_nil]; exact Nat.pos_pow_of_pos 64 (by omega)
  | cons p t ih =>
    rw [sumv_cons]
    exact nat_xor_lt_two_pow (gval_lt_two64 W p) ih

theorem sumv_remove_pairs (m : List G) : sumv I W (remove_pairs I m) = sumv I W m := by
  unfold remove_pairs sumv
  rw [foldxor_cancelPairs]
  exact foldxor_perm _ (sortByKey_perm _ m)

theorem canon_moves_value {g : G} {m' : List G} (h : m' ∈ canon_moves I g) :
    sumv I W m' ∈ mvals I W g := by
  unfold canon_moves at h
  rcases List.mem_map.mp h with ⟨m0, hm0, hmeq⟩
  have hm0s : m0 ∈ sortByKey I.hash_move (I.get_split_moves g) := mem_rustDedup.mp hm0
  have hm0m : m0 ∈ I.get_split_moves g := (sortByKey_perm _ _).mem_iff.mp hm0s
  rw [← hmeq, sumv_remove_pairs]
  exact List.mem_map.mpr ⟨m0, hm0m, rfl⟩

theorem canon_moves_rank {g : G} {m' : List G} (h : m' ∈ canon_moves I g) :
    ∀ p ∈ m', W.rank p < W.rank g := by
  unfold canon_moves at h
  rcases List.mem_map.mp h with ⟨m0, hm0, hmeq⟩
  have hm0s : m0 ∈ sortByKey I.hash_move (I.get_split_moves g) := mem_rustDedup.mp hm0
  have hm0m : m0 ∈ I.get_split_moves g := (sortByKey_perm _ _).mem_iff.mp hm0s
  intro p hp
  rw [← hmeq] at hp
  unfold remove_pairs at hp
  have hp0 : p ∈ sortByKey I.hash_game m0 := cancelPairs_subset _ hp
  have hpm : p ∈ m0 := (sortByKey_perm _ _).mem_iff.mp hp0
  exact W.rank_lt g m0 hm0m p hpm

theorem canon_moves_cover {g : G} {v : Nat} (hv : v ∈ mvals I W g) :
    ∃ m' ∈ canon_moves I g, sumv I W m' = v := by
  rcases List.mem_map.mp hv with ⟨m, hm, hveq⟩
  have hm1 : m ∈ sortByKey I.hash_move (I.get_split_moves g) :=
    (sortByKey_perm _ _).mem_iff.mpr hm
  have hm2 : m ∈ rustDedup (sortByKey I.hash_move (I.get_split_moves g)) :=
    mem_rustDedup.mpr hm1
  refine ⟨remove_pairs I m, List.mem_map.mpr ⟨m, hm2, rfl⟩, ?_⟩
  rw [sumv_remove_pairs, hveq]

end GrundyLemmas

/-! ## State and invariant helper lemmas -/

section StateLemmas

variable {G : Type} [DecidableEq G] {I : Impartial G} {W : GameRank G I}

theorem cache_insert_self (s : EvalState G) (g : G) (e : Entry G) :
    (s.insert g e).cache g = some e := by
  unfold EvalState.insert
  simp

theorem cache_insert_ne (s : EvalState G) (g x : G) (e : Entry G) (h : x ≠ g) :
    (s.insert g e).cache x = s.cache x := by
  unfold EvalState.insert
  simp [h]

theorem Inv_mono {r r' : Nat} {s : EvalState G} (hle : r' ≤ r) (h : Inv I W r s) :
    Inv I W r' s := by
  intro g e hg
  rcases h g e hg with ⟨h1, h2⟩
  exact ⟨h1, fun hr => h2 (by omega)⟩

theorem Inv_insert {r : Nat} {s : EvalState G} {g : G} {e : Entry G}
    (h : Inv I W r s) (hl : EntryLight I W g e)
    (hc : W.rank g < r → ∀ d, e.data = EntryData.Processing d → Cover I W g d) :
    Inv I W r (s.insert g e) := by
  intro x ex hx
  by_cases hxg : x = g
  · subst hxg
    rw [cache_insert_self] at hx
    cases hx
    exact ⟨hl, hc⟩
  · rw [cache_insert_ne _ _ _ _ hxg] at hx
    exact h x ex hx

theorem Frame_refl {r : Nat} (s : EvalState G) : Frame W r s s := fun _ _ => rfl

theorem Frame_trans {r : Nat} {s1 s2 s3 : EvalState G}
    (h1 : Frame W r s1 s2) (h2 : Frame W r s2 s3) : Frame W r s1 s3 :=
  fun h hr => (h2 h hr).trans (h1 h hr)

theorem Frame_insert {r : Nat} {s : EvalState G} {g : G} {e : Entry G}
    (h : W.rank g < r) : Frame W r s (s.insert g e) := by
  intro x hx
  apply cache_insert_ne
  intro hxg
  subst hxg
  omega

theorem Frame_mono {r r' : Nat} {s s' : EvalState G} (hle : r ≤ r')
    (h : Frame W r s s') : Frame W r' s s' :=
  fun x hx => h x (by omega)

end StateLemmas

/-! ## Entry operation lemmas -/

section EntryLemmas

variable {G : Type}

theorem pop_of_processing {e : Entry G} {d : ProcessingData G}
    (h : e.data = EntryData.Processing d) :
    e.pop_unprocessed_move =
      some ((d.pop_unprocessed_move).1,
        ⟨EntryData.Processing (d.pop_unprocessed_move).2, e.max_nimber⟩) := by
  unfold Entry.pop_unprocessed_move
  rw [h]

theorem pop_data_nil {d : ProcessingData G} (h : d.unprocessed_split_moves = []) :
    d.pop_unprocessed_move = (none, d) := by
  unfold ProcessingData.pop_unprocessed_move
  rw [h]
  rfl

theorem pop_data_concat {d : ProcessingData G} {l : List (List G)} {m : List G}
    (h : d.unprocessed_split_moves = l ++ [m]) :
    d.pop_unprocessed_move = (some m, ⟨l, d.impossible_nimbers⟩) := by
  unfold ProcessingData.pop_unprocessed_move
  rw [h, List.getLast?_concat]
  simp [List.dropLast_concat]

theorem mark_of_processing {e : Entry G} {d : ProcessingData G} (n : Nat)
    (h : e.data = EntryData.Processing d) :
    e.mark_impossible n =
      ⟨EntryData.Processing ⟨d.unprocessed_split_moves, insertSorted n d.impossible_nimbers⟩,
        e.max_nimber⟩ := by
  unfold Entry.mark_impossible
  rw [h]
  rfl

theorem append_of_processing {e : Entry G} {d : ProcessingData G} (other : List (List G))
    (h : e.data = EntryData.Processing d) :
    e.append_unprocessed_moves other =
      ⟨EntryData.Processing ⟨d.unprocessed_split_moves ++ other, d.impossible_nimbers⟩,
        e.max_nimber⟩ := by
  unfold Entry.append_unprocessed_moves
  rw [h]
  rfl

theorem get_nimber_of_processing {e : Entry G} {d : ProcessingData G}
    (h : e.data = EntryData.Processing d) : e.get_nimber = none := by
  unfold Entry.get_nimber
  rw [h]

theorem get_nimber_of_stub {e : Entry G} (h : e.data = EntryData.Stub) :
    e.get_nimber = none := by
  unfold Entry.get_nimber
  rw [h]

theorem is_stub_of_processing {e : Entry G} {d : ProcessingData G}
    (h : e.data = EntryData.Processing d) : e.is_stub = false := by
  unfold Entry.is_stub
  rw [h]

end EntryLemmas

/-! ## Fuel monotonicity: a successful run is stable under more fuel -/

section FuelMono

variable {G : Type} [DecidableEq G] (I : Impartial G) (flag : Nat → Bool)

theorem fuel_mono_step :
    ∀ fuel,
      (∀ (g : G) bound s r, get_bounded_nimber_of_part I flag fuel g bound s = some r →
        get_bounded_nimber_of_part I flag (fuel + 1) g bound s = some r) ∧
      (∀ (g : G) bound s r, of_part_loop I flag fuel g bound s = some r →
        of_part_loop I flag (fuel + 1) g bound s = some r) ∧
      (∀ (g : G) target s r, try_rule_out_nimber I flag fuel g target s = some r →
        try_rule_out_nimber I flag (fuel + 1) g target s = some r) ∧
      (∀ (g : G) target deferred s r, try_rule_out_loop I flag fuel g target deferred s = some r →
        try_rule_out_loop I flag (fuel + 1) g target deferred s = some r) ∧
      (∀ (parts : List G) bound s r, get_bounded_nimber_by_parts I flag fuel parts bound s = some r →
        get_bounded_nimber_by_parts I flag (fuel + 1) parts bound s = some r) ∧
      (∀ (parts : List G) acc s r, parts_head_loop I flag fuel parts acc s = some r →
        parts_head_loop I flag (fuel + 1) parts acc s = some r) := by
  intro fuel
  induction fuel with
  | zero =>
    refine ⟨?_, ?_, ?_, ?_, ?_, ?_⟩
    · intro g bound s r h
      rw [get_bounded_nimber_of_part] at h; cases h
    · intro g bound s r h
      rw [of_part_loop] at h; cases h
    · intro g target s r h
      rw [try_rule_out_nimber] at h; cases h
    · intro g target deferred s r h
      rw [try_rule_out_loop] at h; cases h
    · intro parts bound s r h
      rw [get_bounded_nimber_by_parts] at h; cases h
    · intro parts acc s r h
      rw [parts_head_loop] at h; cases h
  | succ fuel ih =>
    obtain ⟨ihpart, ihloop, ihtry, ihtryloop, ihparts, ihhead⟩ := ih
    refine ⟨?_, ?_, ?_, ?_, ?_, ?_⟩
    -- get_bounded_nimber_of_part
    · intro g bound s r h
      rw [get_bounded_nimber_of_part] at h ⊢
      split at h
      · cases h
      · split at h
        · exact h
        · split at h
          · cases h
          next s2 hs2 => exact ihloop g bound s2 r h
    -- of_part_loop
    · intro g bound s r h
      rw [of_part_loop] at h ⊢
      split at h
      next hflag => rw [if_pos hflag]; exact h
      next hflag =>
        rw [if_neg hflag]
        split at h
        · cases h
        · split at h
          · cases h
          · split at h
            next hb => rw [if_pos hb]; exact h
            next hb =>
              rw [if_neg hb]
              split at h
              · cases h
              next heq => rw [ihtry _ _ _ _ heq]; dsimp only; exact h
              next s2 heq =>
                rw [ihtry _ _ _ _ heq]; dsimp only
                exact ihloop g bound s2 r h
              next s2 heq =>
                rw [ihtry _ _ _ _ heq]; dsimp only
                split at h
                · cases h
                · exact h
    -- try_rule_out_nimber
    · intro g target s r h
      rw [try_rule_out_nimber] at h ⊢
      split at h
      · exact h
      · split at h
        · split at h
          next hmx => rw [if_pos hmx]; exact h
          next hmx => rw [if_neg hmx]; exact ihtryloop g target [] s r h
        · exact ihtryloop g target [] s r h
    -- try_rule_out_loop
    · intro g target deferred s r h
      rw [try_rule_out_loop] at h ⊢
      split at h
      · exact h
      · split at h
        · cases h
        · dsimp only at h ⊢
          split at h
          · exact h
          · split at h
            next hflag => rw [if_pos hflag]; exact h
            next hflag =>
              rw [if_neg hflag]
              split at h
              · cases h
              next mv s3 heq =>
                rw [ihparts _ _ _ _ heq]; dsimp only
                split at h
                · exact h
                · split at h
                  next hne => rw [if_pos hne]; exact h
                  next hne => rw [if_neg hne]; exact ihtryloop g target deferred _ r h
              next s3 heq =>
                rw [ihparts _ _ _ _ heq]; dsimp only
                exact ihtryloop g target (deferred ++ [_]) s3 r h
    -- get_bounded_nimber_by_parts
    · intro parts bound s r h
      rw [get_bounded_nimber_by_parts] at h ⊢
      split at h
      next hemp => rw [if_pos hemp]; exact h
      next hemp =>
        rw [if_neg hemp]
        split at h
        · cases h
        next s1 heq => rw [ihhead _ _ _ _ heq]; dsimp only; exact h
        next modifier s1 heq =>
          rw [ihhead _ _ _ _ heq]; dsimp only
          split at h
          · exact h
          · split at h
            · cases h
            next heq2 => rw [ihpart _ _ _ _ heq2]; dsimp only; exact h
            next n s2 heq2 => rw [ihpart _ _ _ _ heq2]; dsimp only; exact h
    -- parts_head_loop
    · intro parts acc s r h
      match parts with
      | [] =>
        rw [parts_head_loop] at h ⊢
        exact h
      | p :: rest =>
        rw [parts_head_loop] at h ⊢
        split at h
        · cases h
        next s1 heq => rw [ihpart _ _ _ _ heq]; dsimp only; exact h
        next n s1 heq =>
          rw [ihpart _ _ _ _ heq]; dsimp only
          exact ihhead rest (acc ^^^ n) s1 r h

theorem of_part_fuel_le {f f' : Nat} (hle : f ≤ f') {g : G} {bound : Nat} {s : EvalState G}
    {r : Option Nat × EvalState G} (h : get_bounded_nimber_of_part I flag f g bound s = some r) :
    get_bounded_nimber_of_part I flag f' g bound s = some r := by
  induction hle with
  | refl => exact h
  | step _ ih => exact (fuel_mono_step I flag _).1 _ _ _ _ ih

theorem by_parts_fuel_le {f f' : Nat} (hle : f ≤ f') {parts : List G} {bound : Nat}
    {s : EvalState G} {r : Option Nat × EvalState G}
    (h : get_bounded_nimber_by_parts I flag f parts bound s = some r) :
    get_bounded_nimber_by_parts I flag f' parts bound s = some r := by
  induction hle with
  | refl => exact h
  | step _ ih => exact (fuel_mono_step I flag _).2.2.2.2.1 _ _ _ _ ih

end FuelMono

/-! ## Invariant glue lemmas -/

section InvGlue

variable {G : Type} [DecidableEq G] {I : Impartial G} {W : GameRank G I}

/-- A state change confined to ranks below `r'` preserves the invariant
at any threshold `r ≥ r'`, given the invariant held before. -/
theorem Inv_glue {r r' : Nat} {s s' : EvalState G} (hle : r' ≤ r)
    (h1 : Inv I W r' s') (hf : Frame W r' s s') (h0 : Inv I W r s) : Inv I W r s' := by
  intro g e hg
  by_cases hrank : W.rank g < r'
  · exact ⟨(h1 g e hg).1, fun _ => (h1 g e hg).2 hrank⟩
  · have hsame : s'.cache g = s.cache g := hf g (by omega)
    rw [hsame] at hg
    exact h0 g e hg

/-- The invariant only depends on the cache, not on the tick counter. -/
theorem Inv_tick {r : Nat} {s : EvalState G} {t : Nat} (h : Inv I W r s) :
    Inv I W r ⟨s.cache, t⟩ :=
  fun g e hg => h g e hg

/-- Rebuilding the threshold-`rank g + 1` invariant after a
`try_rule_out_nimber` call on `g`: the call preserves the invariant
below `rank g`, leaves `g` Processing with coverage, and does not touch
any other entry of rank at least `rank g`. -/
theorem Inv_rebuild {s s' : EvalState G} {g : G} {e' : Entry G}
    (h1 : Inv I W (W.rank g) s')
    (hc : s'.cache g = some e')
    (hcov : ∀ d', e'.data = EntryData.Processing d' → Cover I W g d')
    (hfr : ∀ h : G, W.rank g ≤ W.rank h → h ≠ g → s'.cache h = s.cache h)
    (h0 : Inv I W (W.rank g + 1) s) : Inv I W (W.rank g + 1) s' := by
  intro x ex hx
  by_cases hrank : W.rank x < W.rank g
  · exact ⟨(h1 x ex hx).1, fun _ => (h1 x ex hx).2 hrank⟩
  · by_cases hxg : x = g
    · subst hxg
      rw [hc] at hx
      cases hx
      exact ⟨(h1 x e' hc).1, fun _ => hcov⟩
    · have hsame : s'.cache x = s.cache x := hfr x (by omega) hxg
      rw [hsame] at hx
      exact h0 x ex hx

/-- A frame confined to "rank at least `rank g` and distinct from `g`"
yields a frame at threshold `rank g + 1`. -/
theorem Frame_of_ne {s s' : EvalState G} {g : G}
    (hfr : ∀ h : G, W.rank g ≤ W.rank h → h ≠ g → s'.cache h = s.cache h) :
    Frame W (W.rank g + 1) s s' := by
  intro x hx
  refine hfr x (by omega) ?_
  intro hxg
  subst hxg
  omega

theorem Entry.get_nimber_eq_some {e : Entry G} {n : Nat} (h : e.get_nimber = some n) :
    e.data = EntryData.Done n := by
  unfold Entry.get_nimber at h
  cases hd : e.data with
  | Stub => rw [hd] at h; cases h
  | Processing d => rw [hd] at h; cases h
  | Done m => rw [hd] at h; cases h; rfl

end InvGlue

/-! ## EntryLight constructors -/

section LightBuild

variable {G : Type} [DecidableEq G] {I : Impartial G} {W : GameRank G I}

theorem light_processing {g : G} {mx : Option Nat} {pend : List (List G)} {imp : List Nat}
    (hm : mx = I.get_max_nimber g) (hs : SortedLT imp) (hi : ∀ v ∈ imp, v ∈ mvals I W g)
    (hv : ∀ m ∈ pend, sumv I W m ∈ mvals I W g)
    (hr : ∀ m ∈ pend, ∀ p ∈ m, W.rank p < W.rank g) :
    EntryLight I W g ⟨EntryData.Processing ⟨pend, imp⟩, mx⟩ := by
  refine ⟨hm, ?_, ?_⟩
  · intro n hn; cases hn
  · intro d' hd'
    injection hd' with hd'
    subst hd'
    exact ⟨hs, hi, hv, hr⟩

theorem light_done {g : G} {mx : Option Nat} {n : Nat}
    (hm : mx = I.get_max_nimber g) (hn : n = gval I W g) :
    EntryLight I W g ⟨EntryData.Done n, mx⟩ := by
  refine ⟨hm, ?_, ?_⟩
  · intro n' hn'
    injection hn' with hn'
    subst hn'
    exact hn
  · intro d' hd'; cases hd'

theorem light_stub {g : G} {mx : Option Nat} (hm : mx = I.get_max_nimber g) :
    EntryLight I W g ⟨EntryData.Stub, mx⟩ := by
  refine ⟨hm, ?_, ?_⟩
  · intro n' hn'; cases hn'
  · intro d' hd'; cases hd'

theorem light_new (g : G) : EntryLight I W g (Entry.new (I.get_max_nimber g)) :=
  light_stub rfl

end LightBuild

end ImpartialSolver

namespace ImpartialSolver

section MainInduction

variable {G : Type} [DecidableEq G] {I : Impartial G} {W : GameRank G I}

theorem solver_sound (I : Impartial G) (W : GameRank G I) (hmax : MaxOK I W) :
    ∀ fuel, OfPartSpec I W fuel ∧ OfPartLoopSpec I W fuel ∧ TryRuleOutSpec I W fuel ∧
      TryLoopSpec I W fuel ∧ ByPartsSpec I W fuel ∧ HeadLoopSpec I W fuel := by
  intro fuel
  induction fuel with
  | zero =>
    refine ⟨?_, ?_, ?_, ?_, ?_, ?_⟩
    · intro g bound s res s' _ h
      rw [get_bounded_nimber_of_part] at h; cases h
    · intro g bound s res s' _ _ h
      rw [of_part_loop] at h; cases h
    · intro g target s res s' e d _ _ _ _ _ _ h
      rw [try_rule_out_nimber] at h; cases h
    · intro g target deferred s res s' e d _ _ _ _ _ _ _ _ _ h
      rw [try_rule_out_loop] at h; cases h
    · intro parts bound s res s' r _ _ h
      rw [get_bounded_nimber_by_parts] at h; cases h
    · intro parts acc s res s' r _ _ h
      rw [parts_head_loop] at h; cases h
  | succ fuel ih =>
    obtain ⟨ihpart, ihloop, ihtry, ihtryloop, ihparts, ihhead⟩ := ih
    have headloop : HeadLoopSpec I W (fuel + 1) := by
      intro parts acc s res s' r hr hInv h
      match parts with
      | [] =>
        rw [parts_head_loop] at h
        cases h
        refine ⟨hInv, Frame_refl s, ?_⟩
        rw [sumv_nil, Nat.xor_zero]
      | p :: rest =>
        rw [parts_head_loop] at h
        have hpr : W.rank p < r := hr p (List.mem_cons_self _ _)
        have hInvp : Inv I W (W.rank p + 1) s := Inv_mono (by omega) hInv
        split at h
        · cases h
        next s1 heq =>
          obtain ⟨hInv1, hFr1, hsome1, hnone1⟩ := ihpart p usizeMAX s none s1 hInvp heq
          exfalso
          have := hnone1 rfl
          have h2 := gval_lt_two64 W p
          unfold usizeMAX at this
          omega
        next n s1 heq =>
          obtain ⟨hInv1, hFr1, hsome1, hnone1⟩ := ihpart p usizeMAX s (some n) s1 hInvp heq
          have hn : n = gval I W p := (hsome1 n rfl).1
          have hInvr1 : Inv I W r s1 := Inv_glue (by omega) hInv1 hFr1 hInv
          have hrest : ∀ q ∈ rest, W.rank q < r := fun q hq => hr q (List.mem_cons_of_mem _ hq)
          obtain ⟨hInv2, hFr2, hres⟩ := ihhead rest (acc ^^^ n) s1 res s' r hrest hInvr1 h
          refine ⟨hInv2, Frame_trans (Frame_mono (by omega) hFr1) hFr2, ?_⟩
          rw [hres, sumv_cons, hn, Nat.xor_assoc]
    have byparts : ByPartsSpec I W (fuel + 1) := by
      intro parts bound s res s' r hr hInv h
      rw [get_bounded_nimber_by_parts] at h
      split at h
      next hemp =>
        cases h
        have hpe : parts = [] := List.isEmpty_iff.mp hemp
        subst hpe
        refine ⟨hInv, Frame_refl s, ?_, ?_⟩
        · intro v hv
          cases hv
          rw [sumv_nil]
        · intro hc; cases hc
      next hemp =>
        have hne : parts ≠ [] := by
          intro hc; subst hc; simp [List.isEmpty] at hemp
        have hdl : ∀ q ∈ parts.dropLast, W.rank q < r :=
          fun q hq => hr q (List.dropLast_subset parts hq)
        split at h
        · cases h
        next s1 heq =>
          obtain ⟨_, _, hres⟩ := ihhead parts.dropLast 0 s none s1 r hdl hInv heq
          cases hres
        next modifier s1 heq =>
          obtain ⟨hInv1, hFr1, hres⟩ := ihhead parts.dropLast 0 s (some modifier) s1 r hdl hInv heq
          have hmod : modifier = sumv I W parts.dropLast := by
            cases hres
            rw [Nat.zero_xor]
          split at h
          next hlast =>
            exfalso
            exact hne (List.getLast?_eq_none_iff.mp hlast)
          next lastPart hlast =>
            have hlmem : lastPart ∈ parts := List.mem_of_getLast?_eq_some hlast
            have hldec : parts.dropLast ++ [lastPart] = parts :=
              List.dropLast_append_getLast? lastPart hlast
            have hsum : sumv I W parts = modifier ^^^ gval I W lastPart := by
              rw [← hldec, sumv_concat, hmod, ← hldec, List.dropLast_concat]
            have hInvl : Inv I W (W.rank lastPart + 1) s1 :=
              Inv_mono (by have := hr lastPart hlmem; omega) hInv1
            split at h
            · cases h
            next s2 heq2 =>
              obtain ⟨hInv2, hFr2, hsome2, hnone2⟩ :=
                ihpart lastPart (bound ||| modifier) s1 none s2 hInvl heq2
              have hgt := hnone2 rfl
              cases h
              refine ⟨Inv_glue (by have := hr lastPart hlmem; omega) hInv2 hFr2 hInv1,
                Frame_trans hFr1 (Frame_mono (by have := hr lastPart hlmem; omega) hFr2),
                ?_, ?_⟩
              · intro v hv; cases hv
              · intro _
                rw [hsum]
                intro hceq
                have hx : gval I W lastPart = modifier ^^^ bound := by
                  have : modifier ^^^ (modifier ^^^ gval I W lastPart) = modifier ^^^ bound := by
                    rw [hceq]
                  rwa [← Nat.xor_assoc, Nat.xor_self, Nat.zero_xor] at this
                have hle : gval I W lastPart ≤ bound ||| modifier := by
                  rw [hx, Nat.lor_comm]
                  exact nat_xor_le_or modifier bound
                omega
            next n s2 heq2 =>
              obtain ⟨hInv2, hFr2, hsome2, hnone2⟩ :=
                ihpart lastPart (bound ||| modifier) s1 (some n) s2 hInvl heq2
              have hn : n = gval I W lastPart := (hsome2 n rfl).1
              cases h
              refine ⟨Inv_glue (by have := hr lastPart hlmem; omega) hInv2 hFr2 hInv1,
                Frame_trans hFr1 (Frame_mono (by have := hr lastPart hlmem; omega) hFr2),
                ?_, ?_⟩
              · intro v hv
                cases hv
                rw [hsum, hn]
              · intro hc; cases hc
    have tryloop : TryLoopSpec I W (fuel + 1) := by
      intro g target deferred s res s' e d hInv hcache hdata hdefv hdefr hdefne hcoverp hlow hnotin h
      obtain ⟨hmaxe, hdone_e, hproc_e⟩ := (hInv g e hcache).1
      obtain ⟨hsorted, himpsub, hpendv, hpendr⟩ := hproc_e d hdata
      rw [try_rule_out_loop] at h
      split at h
      next hnone0 => rw [hcache] at hnone0; cases hnone0
      next e0 heq0 =>
        rw [hcache] at heq0
        injection heq0 with heq0
        subst heq0
        split at h
        next hpop =>
          rw [pop_of_processing hdata] at hpop; cases hpop
        next popped e2 hpop =>
          rw [pop_of_processing hdata] at hpop
          injection hpop with hpair
          injection hpair with hp1 hp2
          subst hp1
          subst hp2
          rcases List.eq_nil_or_concat d.unprocessed_split_moves with hpend | ⟨l, m, hpend⟩
          · -- pending empty: the loop breaks and re-appends the deferrals
            rw [pop_data_nil hpend] at h
            dsimp only at h
            unfold finish_rule_out at h
            rw [cache_insert_self] at h
            simp only [Entry.append_unprocessed_moves, ProcessingData.append_unprocessed_moves] at h
            cases h
            have htgv : target = gval I W g := by
              apply gval_unique
              · intro hmem
                rcases hcoverp target hmem with hin | ⟨w, hw, hweq⟩
                · exact hnotin hin
                · rcases List.mem_append.mp hw with hw1 | hw1
                  · rw [hpend] at hw1; cases hw1
                  · exact hdefne w hw1 hweq
              · intro k hk
                exact himpsub k (hlow k hk)
            refine ⟨⟨false, rfl⟩, ?_, ?_, ?_, fun _ => htgv⟩
            · refine ⟨_, _, cache_insert_self _ _ _, rfl, ?_⟩
              intro v hv
              rcases hcoverp v hv with hin | ⟨w, hw, hweq⟩
              · exact Or.inl hin
              · rcases List.mem_append.mp hw with hw1 | hw1
                · rw [hpend] at hw1; cases hw1
                · exact Or.inr ⟨w, List.mem_append.mpr (Or.inr hw1), hweq⟩
            · refine Inv_insert (Inv_insert hInv ?_ ?_) ?_ ?_
              · exact light_processing hmaxe hsorted himpsub hpendv hpendr
              · intro hcon; omega
              · apply light_processing hmaxe hsorted himpsub
                · intro w hw
                  rcases List.mem_append.mp hw with h1 | h1
                  · exact hpendv w h1
                  · exact hdefv w h1
                · intro w hw
                  rcases List.mem_append.mp hw with h1 | h1
                  · exact hpendr w h1
                  · exact hdefr w h1
              · intro hcon; omega
            · intro x hx hxg
              rw [cache_insert_ne _ _ _ _ hxg, cache_insert_ne _ _ _ _ hxg]
          · -- pending ends with move m, which is popped and probed
            rw [List.concat_eq_append] at hpend
            rw [pop_data_concat hpend] at h
            dsimp only [EvalState.readFlag, noCancel] at h
            rw [if_neg (by simp)] at h
            have hmmem : m ∈ d.unprocessed_split_moves := by
              rw [hpend]; exact List.mem_append.mpr (Or.inr (List.mem_cons_self _ _))
            have hmval : sumv I W m ∈ mvals I W g := hpendv m hmmem
            have hmrank : ∀ p ∈ m, W.rank p < W.rank g := hpendr m hmmem
            have hlsubv : ∀ w ∈ l, sumv I W w ∈ mvals I W g := by
              intro w hw
              exact hpendv w (by rw [hpend]; exact List.mem_append.mpr (Or.inl hw))
            have hlsubr : ∀ w ∈ l, ∀ p ∈ w, W.rank p < W.rank g := by
              intro w hw
              exact hpendr w (by rw [hpend]; exact List.mem_append.mpr (Or.inl hw))
            have hlight2 : EntryLight I W g
                ⟨EntryData.Processing ⟨l, d.impossible_nimbers⟩, e.max_nimber⟩ :=
              light_processing hmaxe hsorted himpsub hlsubv hlsubr
            have hInv2 : Inv I W (W.rank g)
                (s.insert g ⟨EntryData.Processing ⟨l, d.impossible_nimbers⟩, e.max_nimber⟩) :=
              Inv_insert hInv hlight2 (fun hcon => absurd hcon (by omega))
            split at h
            · cases h
            next mv s3 heqc =>
              obtain ⟨hInv3, hFr3, hsomec, hnonec⟩ :=
                ihparts m target _ (some mv) s3 (W.rank g) (fun p hp => hmrank p hp)
                  (Inv_tick hInv2) heqc
              have hmveq : mv = sumv I W m := hsomec mv rfl
              have hc3 : s3.cache g =
                  some ⟨EntryData.Processing ⟨l, d.impossible_nimbers⟩, e.max_nimber⟩ := by
                rw [hFr3 g (Nat.le_refl _)]
                exact cache_insert_self _ _ _
              split at h
              next heq3 => rw [hc3] at heq3; cases heq3
              next e3 heq3 =>
                rw [hc3] at heq3
                injection heq3 with heq3
                subst heq3
                simp only [Entry.mark_impossible, ProcessingData.mark_impossible] at h
                have himpsub2 : ∀ v ∈ insertSorted mv d.impossible_nimbers, v ∈ mvals I W g := by
                  intro v hv
                  rcases mem_insertSorted.mp hv with h1 | h1
                  · subst h1; rw [hmveq]; exact hmval
                  · exact himpsub v h1
                split at h
                next htv =>
                  unfold finish_rule_out at h
                  rw [cache_insert_self] at h
                  simp only [Entry.append_unprocessed_moves,
                    ProcessingData.append_unprocessed_moves] at h
                  cases h
                  refine ⟨⟨true, rfl⟩, ?_, ?_, ?_, ?_⟩
                  · refine ⟨_, _, cache_insert_self _ _ _, rfl, ?_⟩
                    intro v hv
                    rcases hcoverp v hv with hin | ⟨w, hw, hweq⟩
                    · exact Or.inl (mem_insertSorted.mpr (Or.inr hin))
                    · rcases List.mem_append.mp hw with hw1 | hw1
                      · rw [hpend] at hw1
                        rcases List.mem_append.mp hw1 with hw2 | hw2
                        · exact Or.inr ⟨w, List.mem_append.mpr (Or.inl hw2), hweq⟩
                        · have hwm : w = m := by simpa using hw2
                          subst hwm
                          refine Or.inl (mem_insertSorted.mpr (Or.inl ?_))
                          rw [← hweq, hmveq]
                      · exact Or.inr ⟨w, List.mem_append.mpr (Or.inr hw1), hweq⟩
                  · refine Inv_insert (Inv_insert hInv3 ?_ ?_) ?_ ?_
                    · exact light_processing hmaxe (insertSorted_sorted hsorted) himpsub2
                        hlsubv hlsubr
                    · intro hcon; omega
                    · apply light_processing hmaxe (insertSorted_sorted hsorted) himpsub2
                      · intro w hw
                        rcases List.mem_append.mp hw with h1 | h1
                        · exact hlsubv w h1
                        · exact hdefv w h1
                      · intro w hw
                        rcases List.mem_append.mp hw with h1 | h1
                        · exact hlsubr w h1
                        · exact hdefr w h1
                    · intro hcon; omega
                  · intro x hx hxg
                    rw [cache_insert_ne _ _ _ _ hxg, cache_insert_ne _ _ _ _ hxg,
                      hFr3 x hx]
                    exact cache_insert_ne _ _ _ _ hxg
                  · intro hcf; cases hcf
                next htv =>
                  have hInv4 : Inv I W (W.rank g)
                      (s3.insert g ⟨EntryData.Processing
                        ⟨l, insertSorted mv d.impossible_nimbers⟩, e.max_nimber⟩) :=
                    Inv_insert hInv3
                      (light_processing hmaxe (insertSorted_sorted hsorted) himpsub2
                        hlsubv hlsubr)
                      (fun hcon => absurd hcon (by omega))
                  have hcov4 : ∀ v ∈ mvals I W g, v ∈ insertSorted mv d.impossible_nimbers ∨
                      ∃ w ∈ l ++ deferred, sumv I W w = v := by
                    intro v hv
                    rcases hcoverp v hv with hin | ⟨w, hw, hweq⟩
                    · exact Or.inl (mem_insertSorted.mpr (Or.inr hin))
                    · rcases List.mem_append.mp hw with hw1 | hw1
                      · rw [hpend] at hw1
                        rcases List.mem_append.mp hw1 with hw2 | hw2
                        · exact Or.inr ⟨w, List.mem_append.mpr (Or.inl hw2), hweq⟩
                        · have hwm : w = m := by simpa using hw2
                          subst hwm
                          refine Or.inl (mem_insertSorted.mpr (Or.inl ?_))
                          rw [← hweq, hmveq]
                      · exact Or.inr ⟨w, List.mem_append.mpr (Or.inr hw1), hweq⟩
                  have hlow4 : ∀ k < target, k ∈ insertSorted mv d.impossible_nimbers :=
                    fun k hk => mem_insertSorted.mpr (Or.inr (hlow k hk))
                  have hnotin4 : target ∉ insertSorted mv d.impossible_nimbers := by
                    intro hcon
                    rcases mem_insertSorted.mp hcon with h1 | h1
                    · exact htv h1
                    · exact hnotin h1
                  obtain ⟨hb, hentry, hInvf, hfr, hfalse⟩ :=
                    ihtryloop g target deferred _ res s' _ _ hInv4 (cache_insert_self _ _ _) rfl
                      hdefv hdefr hdefne hcov4 hlow4 hnotin4 h
                  refine ⟨hb, hentry, hInvf, ?_, hfalse⟩
                  intro x hx hxg
                  rw [hfr x hx hxg, cache_insert_ne _ _ _ _ hxg, hFr3 x hx]
                  exact cache_insert_ne _ _ _ _ hxg
            next s3 heqc =>
              obtain ⟨hInv3, hFr3, _, hnonec⟩ :=
                ihparts m target _ none s3 (W.rank g) (fun p hp => hmrank p hp)
                  (Inv_tick hInv2) heqc
              have hmne : sumv I W m ≠ target := hnonec rfl
              have hc3 : s3.cache g =
                  some ⟨EntryData.Processing ⟨l, d.impossible_nimbers⟩, e.max_nimber⟩ := by
                rw [hFr3 g (Nat.le_refl _)]
                exact cache_insert_self _ _ _
              have hdefv2 : ∀ w ∈ deferred ++ [m], sumv I W w ∈ mvals I W g := by
                intro w hw
                rcases List.mem_append.mp hw with h1 | h1
                · exact hdefv w h1
                · have hwm : w = m := by simpa using h1
                  subst hwm; exact hmval
              have hdefr2 : ∀ w ∈ deferred ++ [m], ∀ p ∈ w, W.rank p < W.rank g := by
                intro w hw
                rcases List.mem_append.mp hw with h1 | h1
                · exact hdefr w h1
                · have hwm : w = m := by simpa using h1
                  subst hwm; exact hmrank
              have hdefne2 : ∀ w ∈ deferred ++ [m], sumv I W w ≠ target := by
                intro w hw
                rcases List.mem_append.mp hw with h1 | h1
                · exact hdefne w h1
                · have hwm : w = m := by simpa using h1
                  subst hwm; exact hmne
              have hcov2 : ∀ v ∈ mvals I W g, v ∈ d.impossible_nimbers ∨
                  ∃ w ∈ l ++ (deferred ++ [m]), sumv I W w = v := by
                intro v hv
                rcases hcoverp v hv with hin | ⟨w, hw, hweq⟩
                · exact Or.inl hin
                · rcases List.mem_append.mp hw with hw1 | hw1
                  · rw [hpend] at hw1
                    rcases List.mem_append.mp hw1 with hw2 | hw2
                    · exact Or.inr ⟨w, List.mem_append.mpr (Or.inl hw2), hweq⟩
                    · exact Or.inr ⟨w, List.mem_append.mpr (Or.inr
                        (List.mem_append.mpr (Or.inr hw2))), hweq⟩
                  · exact Or.inr ⟨w, List.mem_append.mpr (Or.inr
                      (List.mem_append.mpr (Or.inl hw1))), hweq⟩
              obtain ⟨hb, hentry, hInvf, hfr, hfalse⟩ :=
                ihtryloop g target (deferred ++ [m]) s3 res s' _ _ hInv3 hc3 rfl
                  hdefv2 hdefr2 hdefne2 hcov2 hlow hnotin h
              refine ⟨hb, hentry, hInvf, ?_, hfalse⟩
              intro x hx hxg
              rw [hfr x hx hxg, hFr3 x hx]
              exact cache_insert_ne _ _ _ _ hxg
    have tryout : TryRuleOutSpec I W (fuel + 1) := by
      intro g target s res s' e d hInv hcache hdata hcover hlow hnotin h
      obtain ⟨hmaxe, hdone_e, hproc_e⟩ := (hInv g e hcache).1
      obtain ⟨hsorted, himpsub, hpendv, hpendr⟩ := hproc_e d hdata
      have htle : target ≤ gval I W g := by
        by_contra hcon
        push_neg at hcon
        exact gval_not_mem_mvals W g (himpsub _ (hlow _ hcon))
      have hcov0 : ∀ v ∈ mvals I W g, v ∈ d.impossible_nimbers ∨
          ∃ m ∈ d.unprocessed_split_moves ++ ([] : List (List G)), sumv I W m = v := by
        intro v hv
        rcases hcover v hv with h1 | ⟨m, hm, hmeq⟩
        · exact Or.inl h1
        · exact Or.inr ⟨m, List.mem_append.mpr (Or.inl hm), hmeq⟩
      rw [try_rule_out_nimber] at h
      split at h
      next hn => rw [hcache] at hn; cases hn
      next e0 heq0 =>
        rw [hcache] at heq0
        injection heq0 with heq0
        subst heq0
        split at h
        next mx hmx =>
          split at h
          next hlt =>
            exfalso
            have hmg : I.get_max_nimber g = some mx := by rw [← hmaxe, hmx]
            have := hmax g mx hmg
            omega
          next hlt =>
            exact ihtryloop g target [] s res s' e d hInv hcache hdata
              (fun m hm => absurd hm (List.not_mem_nil m))
              (fun m hm => absurd hm (List.not_mem_nil m))
              (fun m hm => absurd hm (List.not_mem_nil m))
              hcov0 hlow hnotin h
        next hmx =>
          exact ihtryloop g target [] s res s' e d hInv hcache hdata
            (fun m hm => absurd hm (List.not_mem_nil m))
            (fun m hm => absurd hm (List.not_mem_nil m))
            (fun m hm => absurd hm (List.not_mem_nil m))
            hcov0 hlow hnotin h
    have oploop : OfPartLoopSpec I W (fuel + 1) := by
      intro g bound s res s' hInv hex h
      obtain ⟨e, d, hcache, hdata⟩ := hex
      obtain ⟨hlight, hcovf⟩ := hInv g e hcache
      obtain ⟨hmaxe, hdone_e, hproc_e⟩ := hlight
      obtain ⟨hsorted, himpsub, hpendv, hpendr⟩ := hproc_e d hdata
      have hcover : Cover I W g d := hcovf (by omega) d hdata
      rw [of_part_loop] at h
      dsimp only [EvalState.readFlag, noCancel] at h
      rw [if_neg (by simp)] at h
      split at h
      next hn => rw [hcache] at hn; cases hn
      next e1 heq1 =>
        rw [hcache] at heq1
        injection heq1 with heq1
        subst heq1
        have hsm : e.get_smallest_possible_nimber = some d.get_smallest_possible_nimber := by
          unfold Entry.get_smallest_possible_nimber
          rw [hdata]
        obtain ⟨htnotin, htlow⟩ := smallest_spec hsorted
        have htle : d.get_smallest_possible_nimber ≤ gval I W g := by
          by_contra hcon
          push_neg at hcon
          exact gval_not_mem_mvals W g (himpsub _ (htlow _ hcon))
        split at h
        next hn => rw [hsm] at hn; cases hn
        next nimber hn =>
          rw [hsm] at hn
          injection hn with hn
          subst hn
          split at h
          next hbt =>
            cases h
            refine ⟨Inv_tick hInv, fun x hx => rfl, ?_, ?_⟩
            · intro n hn; cases hn
            · intro _; omega
          next hbt =>
            split at h
            · cases h
            next s2 heq2 =>
              obtain ⟨⟨b, hb⟩, _, _, _, _⟩ :=
                ihtry g d.get_smallest_possible_nimber ⟨s.cache, s.tick + 1⟩ none s2 e d
                  (Inv_mono (Nat.le_succ _) (Inv_tick hInv)) hcache hdata hcover htlow htnotin
                  heq2
              cases hb
            next s2 heq2 =>
              obtain ⟨_, ⟨e', d', hc', hd', hcov'⟩, hInv2, hfr2, hfalse⟩ :=
                ihtry g d.get_smallest_possible_nimber ⟨s.cache, s.tick + 1⟩ (some true) s2 e d
                  (Inv_mono (Nat.le_succ _) (Inv_tick hInv)) hcache hdata hcover htlow htnotin
                  heq2
              have hcovd : ∀ d'', e'.data = EntryData.Processing d'' → Cover I W g d'' := by
                intro d'' hd''
                rw [hd'] at hd''
                injection hd'' with hdd
                subst hdd
                exact hcov'
              have hInv3 : Inv I W (W.rank g + 1) s2 :=
                Inv_rebuild hInv2 hc' hcovd hfr2 (Inv_tick hInv)
              obtain ⟨hInvf, hframef, hsomef, hnonef⟩ :=
                ihloop g bound s2 res s' hInv3 ⟨e', d', hc', hd'⟩ h
              exact ⟨hInvf,
                Frame_trans (fun x hx => rfl) (Frame_trans (Frame_of_ne hfr2) hframef),
                hsomef, hnonef⟩
            next s2 heq2 =>
              obtain ⟨_, ⟨e', d', hc', hd', hcov'⟩, hInv2, hfr2, hfalse⟩ :=
                ihtry g d.get_smallest_possible_nimber ⟨s.cache, s.tick + 1⟩ (some false) s2 e d
                  (Inv_mono (Nat.le_succ _) (Inv_tick hInv)) hcache hdata hcover htlow htnotin
                  heq2
              have hcovd : ∀ d'', e'.data = EntryData.Processing d'' → Cover I W g d'' := by
                intro d'' hd''
                rw [hd'] at hd''
                injection hd'' with hdd
                subst hdd
                exact hcov'
              have hInv3 : Inv I W (W.rank g + 1) s2 :=
                Inv_rebuild hInv2 hc' hcovd hfr2 (Inv_tick hInv)
              have htg : d.get_smallest_possible_nimber = gval I W g := hfalse rfl
              split at h
              next hn2 => rw [hc'] at hn2; cases hn2
              next e2 heq2' =>
                rw [hc'] at heq2'
                injection heq2' with heq2'
                subst heq2'
                cases h
                refine ⟨?_, ?_, ?_, ?_⟩
                · refine Inv_insert hInv3 (light_done (hInv2 g e' hc').1.1 htg) ?_
                  intro _ d'' hd''
                  cases hd''
                · exact Frame_trans (fun x hx => rfl)
                    (Frame_trans (Frame_of_ne hfr2) (Frame_insert (by omega)))
                · intro n hn
                  injection hn with hn
                  subst hn
                  exact ⟨htg, _, cache_insert_self _ _ _, rfl⟩
                · intro hcn; cases hcn
    have opart : OfPartSpec I W (fuel + 1) := by
      intro g bound s res s' hInv h
      rw [get_bounded_nimber_of_part] at h
      by_cases hcs : (s.cache g).isSome
      · rw [if_pos hcs] at h
        split at h
        next hn =>
          exfalso
          rw [hn] at hcs
          cases hcs
        next e1 heq1 =>
          obtain ⟨hlight, hcovf⟩ := hInv g e1 heq1
          split at h
          next nimber hgn =>
            cases h
            have hdone : e1.data = EntryData.Done nimber := Entry.get_nimber_eq_some hgn
            refine ⟨hInv, Frame_refl s, ?_, ?_⟩
            · intro n hn
              injection hn with hn
              subst hn
              exact ⟨hlight.2.1 nimber hdone, e1, heq1, hdone⟩
            · intro hcn; cases hcn
          next hgn =>
            unfold destub at h
            rw [heq1] at h
            dsimp only at h
            by_cases hst : e1.is_stub
            · rw [if_pos hst] at h
              dsimp only at h
              have hstub : e1.data = EntryData.Stub := by
                unfold Entry.is_stub at hst
                cases hd1 : e1.data with
                | Stub => rfl
                | Processing d => rw [hd1] at hst; cases hst
                | Done n => rw [hd1] at hst; cases hst
              have hlp : EntryLight I W g
                  ⟨EntryData.Processing (ProcessingData.new (canon_moves I g)),
                    e1.max_nimber⟩ := by
                refine light_processing hlight.1 List.Pairwise.nil ?_ ?_ ?_
                · intro v hv; cases hv
                · intro m hm; exact canon_moves_value W hm
                · intro m hm; exact canon_moves_rank W hm
              have hInv1 : Inv I W (W.rank g + 1)
                  (s.insert g ⟨EntryData.Processing (ProcessingData.new (canon_moves I g)),
                    e1.max_nimber⟩) := by
                refine Inv_insert hInv hlp ?_
                intro _ d'' hd''
                injection hd'' with hdd
                subst hdd
                intro v hv
                exact Or.inr (canon_moves_cover W hv)
              obtain ⟨hInvf, hframef, hsomef, hnonef⟩ :=
                ihloop g bound _ res s' hInv1 ⟨_, _, cache_insert_self _ _ _, rfl⟩ h
              exact ⟨hInvf, Frame_trans (Frame_insert (by omega)) hframef, hsomef, hnonef⟩
            · rw [if_neg hst] at h
              dsimp only at h
              have hproc : ∃ d, e1.data = EntryData.Processing d := by
                cases hd1 : e1.data with
                | Stub => exact absurd (by unfold Entry.is_stub; rw [hd1]) hst
                | Processing d => exact ⟨d, rfl⟩
                | Done n =>
                  exfalso
                  unfold Entry.get_nimber at hgn
                  rw [hd1] at hgn
                  cases hgn
              obtain ⟨d, hd⟩ := hproc
              exact ihloop g bound s res s' hInv ⟨e1, d, heq1, hd⟩ h
      · rw [if_neg hcs] at h
        rw [cache_insert_self] at h
        dsimp only [Entry.new, Entry.get_nimber] at h
        unfold destub at h
        rw [cache_insert_self] at h
        dsimp only [Entry.new, Entry.is_stub] at h
        rw [if_pos rfl] at h
        have hInv0 : Inv I W (W.rank g + 1) (s.insert g (Entry.new (I.get_max_nimber g))) := by
          refine Inv_insert hInv (light_new g) ?_
          intro _ d'' hd''
          cases hd''
        have hlp : EntryLight I W g
            ⟨EntryData.Processing (ProcessingData.new (canon_moves I g)),
              (Entry.new (I.get_max_nimber g) : Entry G).max_nimber⟩ := by
          refine light_processing rfl List.Pairwise.nil ?_ ?_ ?_
          · intro v hv; cases hv
          · intro m hm; exact canon_moves_value W hm
          · intro m hm; exact canon_moves_rank W hm
        have hInv1 : Inv I W (W.rank g + 1)
            ((s.insert g (Entry.new (I.get_max_nimber g))).insert g
              ⟨EntryData.Processing (ProcessingData.new (canon_moves I g)),
                (Entry.new (I.get_max_nimber g) : Entry G).max_nimber⟩) := by
          refine Inv_insert hInv0 hlp ?_
          intro _ d'' hd''
          injection hd'' with hdd
          subst hdd
          intro v hv
          exact Or.inr (canon_moves_cover W hv)
        obtain ⟨hInvf, hframef, hsomef, hnonef⟩ :=
          ihloop g bound _ res s' hInv1 ⟨_, _, cache_insert_self _ _ _, rfl⟩ h
        exact ⟨hInvf,
          Frame_trans (Frame_insert (by omega)) (Frame_trans (Frame_insert (by omega)) hframef),
          hsomef, hnonef⟩
    exact ⟨opart, oploop, tryout, tryloop, byparts, headloop⟩

end MainInduction

end ImpartialSolver

namespace ImpartialSolver

section BoundMono

variable {G : Type} [DecidableEq G] (I : Impartial G) (flag : Nat → Bool)

/-- Pointwise bit containment implies order on naturals. -/
theorem nat_le_of_testBit_imp {a b : Nat}
    (h : ∀ i, a.testBit i = true → b.testBit i = true) : a ≤ b := by
  have hab : a &&& b = a := by
    apply Nat.eq_of_testBit_eq
    intro i
    rw [Nat.testBit_land]
    cases ha : a.testBit i with
    | false => simp
    | true => simp [h i ha]
  calc a = a &&& b := hab.symm
    _ ≤ b := Nat.and_le_right

/-- Raising the left argument of `|||` to `usize::MAX` can only increase
the value, for any 64-bit-representable left argument. -/
theorem lor_usizeMAX_le {b m : Nat} (hb : b < 2 ^ 64) : b ||| m ≤ usizeMAX ||| m := by
  apply nat_le_of_testBit_imp
  intro i hi
  rw [Nat.testBit_lor] at hi ⊢
  rcases Bool.or_eq_true_iff.mp hi with h1 | h1
  · have hlt : i < 64 := by
      by_contra hge
      push_neg at hge
      have : b < 2 ^ i := lt_of_lt_of_le hb (Nat.pow_le_pow_right (by omega) hge)
      rw [Nat.testBit_eq_false_of_lt this] at h1
      cases h1
    have : usizeMAX.testBit i = true := by
      unfold usizeMAX
      rw [Nat.testBit_two_pow_sub_one]
      simp [hlt]
    rw [this]
    rfl
  · rw [h1]
    simp

/-- Bound monotonicity: a `Some`-valued run of `get_bounded_nimber_of_part`
or its loop is replayed identically at any larger bound, with the same
fuel, the same answer and the same final state. -/
theorem bound_mono_step :
    ∀ fuel,
      (∀ (g : G) b1 b2 s n s', b1 ≤ b2 →
        get_bounded_nimber_of_part I flag fuel g b1 s = some (some n, s') →
        get_bounded_nimber_of_part I flag fuel g b2 s = some (some n, s')) ∧
      (∀ (g : G) b1 b2 s n s', b1 ≤ b2 →
        of_part_loop I flag fuel g b1 s = some (some n, s') →
        of_part_loop I flag fuel g b2 s = some (some n, s')) := by
  intro fuel
  induction fuel with
  | zero =>
    constructor
    · intro g b1 b2 s n s' _ h
      rw [get_bounded_nimber_of_part] at h; cases h
    · intro g b1 b2 s n s' _ h
      rw [of_part_loop] at h; cases h
  | succ fuel ih =>
    obtain ⟨ihp, ihl⟩ := ih
    constructor
    · intro g b1 b2 s n s' hb h
      rw [get_bounded_nimber_of_part] at h ⊢
      split at h
      · cases h
      · split at h
        · exact h
        · split at h
          · cases h
          next s2 _ => exact ihl g b1 b2 s2 n s' hb h
    · intro g b1 b2 s n s' hb h
      rw [of_part_loop] at h ⊢
      split at h
      next hflag =>
        rw [if_pos hflag]
        exfalso
        injection h with h1
        injection h1 with h2 h3
        cases h2
      next hflag =>
        rw [if_neg hflag]
        split at h
        · cases h
        next e heq =>
          split at h
          · cases h
          next nimber heqs =>
            split at h
            next hlt =>
              exfalso
              injection h with h1
              injection h1 with h2 h3
              cases h2
            next hlt =>
              rw [if_neg (by omega)]
              split at h
              · cases h
              next s2 heqt => exact h
              next s2 heqt => exact ihl g b1 b2 s2 n s' hb h
              next s2 heqt => exact h

/-- Bound independence of `get_bounded_nimber_by_parts`: a `Some`-valued
run at a 64-bit bound is replayed identically at bound `usize::MAX`. -/
theorem by_parts_bound_usizeMAX {fuel : Nat} {parts : List G} {b : Nat} {s : EvalState G}
    {n : Nat} {s' : EvalState G} (hb : b < 2 ^ 64)
    (h : get_bounded_nimber_by_parts I flag fuel parts b s = some (some n, s')) :
    get_bounded_nimber_by_parts I flag fuel parts usizeMAX s = some (some n, s') := by
  match fuel with
  | 0 => rw [get_bounded_nimber_by_parts] at h; cases h
  | fuel + 1 =>
    rw [get_bounded_nimber_by_parts] at h ⊢
    split at h
    next hemp => rw [if_pos hemp]; exact h
    next hemp =>
      rw [if_neg hemp]
      split at h
      · cases h
      next s1 heq => exact h
      next modifier s1 heq =>
        split at h
        next hlast => exact h
        next lastPart hlast =>
          split at h
          · cases h
          next s2 heq2 =>
            exfalso
            injection h with h1
            injection h1 with h2 h3
            cases h2
          next m s2 heq2 =>
            have hmono := (bound_mono_step I flag fuel).1 lastPart (b ||| modifier)
              (usizeMAX ||| modifier) s1 m s2 (lor_usizeMAX_le hb) heq2
            rw [hmono]
            dsimp only
            exact h

end BoundMono

end ImpartialSolver

namespace ImpartialSolver

section DoneHit

variable {G : Type} [DecidableEq G] (I : Impartial G) (flag : Nat → Bool)

/-- A cached `Done` entry is returned by `get_bounded_nimber` before any
cancel-flag read, for any bound and any flag oracle, leaving the state
untouched. -/
theorem done_hit {g : G} {s : EvalState G} {e : Entry G} {n : Nat} (b : Nat)
    (hc : s.cache g = some e) (hd : e.data = EntryData.Done n)
    {fuel : Nat} (hf : 2 ≤ fuel) :
    get_bounded_nimber I flag fuel g b s = some (some n, s) := by
  obtain ⟨k, rfl⟩ : ∃ k, fuel = k + 2 := ⟨fuel - 2, by omega⟩
  unfold get_bounded_nimber
  rw [get_bounded_nimber_by_parts]
  rw [if_neg (by simp)]
  have h1 : parts_head_loop I flag (k + 1) ([g] : List G).dropLast 0 s = some (some 0, s) := by
    rw [show ([g] : List G).dropLast = ([] : List G) from rfl, parts_head_loop]
  rw [h1]
  dsimp only
  rw [show ([g] : List G).getLast? = some g from rfl]
  dsimp only
  have h2 : get_bounded_nimber_of_part I flag (k + 1) g (b ||| 0) s = some (some n, s) := by
    rw [get_bounded_nimber_of_part]
    have hsome : (s.cache g).isSome = true := by rw [hc]; rfl
    rw [if_pos hsome, hc]
    dsimp only
    have hgn : e.get_nimber = some n := by
      unfold Entry.get_nimber
      rw [hd]
    rw [hgn]
  rw [h2]
  dsimp only
  rw [Nat.zero_xor]

end DoneHit

section ClaimInfra

variable {G : Type} [DecidableEq G] {I : Impartial G} {W : GameRank G I}

/-- The empty cache satisfies the invariant at every threshold. -/
theorem Inv_init (r : Nat) : Inv I W r (EvalState.init : EvalState G) := by
  intro g e hg
  cases hg

/-- The test game publishes no max-nimber hints, so the hint contract
holds vacuously. -/
theorem tgMaxOK : MaxOK tgImp tgRank := by
  intro g m h
  cases h

theorem foldr_xor_concat (l : List Nat) (x : Nat) :
    (l ++ [x]).foldr (fun a b => a ^^^ b) 0 = (l.foldr (fun a b => a ^^^ b) 0) ^^^ x := by
  induction l with
  | nil => simp
  | cons a t ih =>
    simp only [List.cons_append, List.foldr_cons, ih]
    rw [← Nat.xor_assoc]

/-- A successful `get_nimber` run is a successful `get_bounded_nimber_of_part`
run at bound `usize::MAX` with one fuel step less. -/
theorem get_nimber_to_of_part {fuel : Nat} {p : G} {s : EvalState G} {n : Nat}
    {s' : EvalState G} (h : get_nimber I flag fuel p s = some (some n, s')) :
    ∃ k, k + 2 ≤ fuel ∧
      get_bounded_nimber_of_part I flag (k + 1) p usizeMAX s = some (some n, s') := by
  match fuel with
  | 0 => rw [get_nimber, get_bounded_nimber, get_bounded_nimber_by_parts] at h; cases h
  | fuel + 1 =>
    rw [get_nimber, get_bounded_nimber, get_bounded_nimber_by_parts] at h
    rw [if_neg (by simp)] at h
    match fuel with
    | 0 =>
      rw [show ([p] : List G).dropLast = ([] : List G) from rfl, parts_head_loop] at h
      cases h
    | fuel + 1 =>
      rw [show ([p] : List G).dropLast = ([] : List G) from rfl, parts_head_loop] at h
      dsimp only at h
      rw [show ([p] : List G).getLast? = some p from rfl] at h
      dsimp only at h
      split at h
      · cases h
      next s2 heq => cases h
      next m s2 heq =>
        refine ⟨fuel, by omega, ?_⟩
        injection h with h1
        injection h1 with h2 h3
        injection h2 with h2
        rw [show usizeMAX ||| 0 = usizeMAX from rfl] at heq
        rw [heq, h3, ← h2, Nat.zero_xor]

/-- Assembling the head loop of `get_nimber_by_parts` from a chain of
individual `get_nimber` runs. -/
theorem nimberRuns_head_loop {s : EvalState G} {parts : List G} {ns : List Nat}
    {s' : EvalState G} (h : NimberRuns I s parts ns s') :
    ∃ fuel, ∀ f, fuel ≤ f → ∀ acc,
      parts_head_loop I noCancel f parts acc s =
        some (some (acc ^^^ ns.foldr (fun a b => a ^^^ b) 0), s') := by
  induction h with
  | nil s =>
    refine ⟨1, ?_⟩
    intro f hf acc
    obtain ⟨k, rfl⟩ : ∃ k, f = k + 1 := ⟨f - 1, by omega⟩
    rw [parts_head_loop]
    simp
  | cons s p n s1 ps ns s'' fuel hrun ht ih =>
    obtain ⟨k, hk, hpart⟩ := get_nimber_to_of_part hrun
    obtain ⟨frest, hrest⟩ := ih
    refine ⟨k + 2 + frest, ?_⟩
    intro f hf acc
    obtain ⟨j, rfl⟩ : ∃ j, f = j + 1 := ⟨f - 1, by omega⟩
    rw [parts_head_loop]
    rw [of_part_fuel_le I noCancel (by omega) hpart]
    dsimp only
    rw [hrest j (by omega) (acc ^^^ n)]
    rw [List.foldr_cons, Nat.xor_assoc]

end ClaimInfra

end ImpartialSolver

namespace ImpartialSolver

section ClaimC1

variable {G : Type} [DecidableEq G] {I : Impartial G}

/-- Splitting a chain of sequential `get_nimber` runs at its last part. -/
theorem nimberRuns_snoc {s : EvalState G} {parts : List G} {p : G} {ns : List Nat}
    {s' : EvalState G} (h : NimberRuns I s (parts ++ [p]) ns s') :
    ∃ ns1 n s1, ns = ns1 ++ [n] ∧ NimberRuns I s parts ns1 s1 ∧
      ∃ fuel, get_nimber I noCancel fuel p s1 = some (some n, s') := by
  induction parts generalizing s ns with
  | nil =>
    cases h with
    | cons _ _ n s1 _ ns1 _ fuel hrun ht =>
      cases ht with
      | nil => exact ⟨[], n, s, rfl, NimberRuns.nil s, fuel, hrun⟩
  | cons q rest ih =>
    cases h with
    | cons _ _ n s1 _ ns1 _ fuel hrun ht =>
      obtain ⟨ns2, m, s2, hns, hruns, fuel2, hlast⟩ := ih ht
      exact ⟨n :: ns2, m, s2, by rw [hns]; rfl,
        NimberRuns.cons s q n s1 rest ns2 s2 fuel hrun hruns, fuel2, hlast⟩

/-- C1: for every list of parts on which sequential `get_nimber` calls
all return `Some` (no cancellation), `get_nimber_by_parts` returns the
XOR of the individual nimbers; for the empty list it returns `Some 0`. -/
theorem C1_sum_xor_law {s : EvalState G} {parts : List G} {ns : List Nat}
    {s' : EvalState G} (h : NimberRuns I s parts ns s') :
    ∃ fuel, get_nimber_by_parts I noCancel fuel parts s =
      some (some (ns.foldr (fun a b => a ^^^ b) 0), s') := by
  rcases List.eq_nil_or_concat parts with hnil | ⟨l, p, hsnoc⟩
  · subst hnil
    cases h with
    | nil =>
      refine ⟨1, ?_⟩
      rw [get_nimber_by_parts, get_bounded_nimber_by_parts]
      rw [if_pos (by rfl)]
      rfl
  · rw [List.concat_eq_append] at hsnoc
    subst hsnoc
    obtain ⟨ns1, n, s1, hns, hruns, fuelp, hlast⟩ := nimberRuns_snoc h
    subst hns
    obtain ⟨f0, hhead⟩ := nimberRuns_head_loop hruns
    obtain ⟨k, _, hpart⟩ := get_nimber_to_of_part hlast
    have hpart2 := (bound_mono_step I noCancel (k + 1)).1 p usizeMAX
      (usizeMAX ||| (0 ^^^ ns1.foldr (fun a b => a ^^^ b) 0)) s1 n s'
      (nat_le_or_left _ _) hpart
    refine ⟨f0 + (k + 1) + 1, ?_⟩
    rw [get_nimber_by_parts, get_bounded_nimber_by_parts]
    rw [if_neg (by simp)]
    rw [List.dropLast_concat]
    rw [hhead (f0 + (k + 1)) (by omega) 0]
    dsimp only
    rw [List.getLast?_concat]
    dsimp only
    rw [of_part_fuel_le I noCancel (show k + 1 ≤ f0 + (k + 1) by omega) hpart2]
    dsimp only
    rw [Nat.zero_xor, foldr_xor_concat]

/-- Concrete instantiation of C1: the chained runs on positions 1 and 2
of the test game return nimbers 1 and 2, and the combined query returns
their XOR 3. -/
theorem C1_sum_xor_law_witness :
    ∃ fuel, get_nimber_by_parts tgImp noCancel fuel [1, 2] EvalState.init =
      some (some (([1, 2] : List Nat).foldr (fun a b => a ^^^ b) 0), c1S2) :=
  C1_sum_xor_law
    (NimberRuns.cons EvalState.init 1 1 c1S1 [2] [2] c1S2 30 rfl
      (NimberRuns.cons c1S1 2 2 c1S2 [] [] c1S2 30 rfl (NimberRuns.nil c1S2)))

end ClaimC1

end ImpartialSolver

namespace ImpartialSolver

section ClaimC2

/-- C2 (amended): for a cancel-free bounded query on a game with a rank
certificate and sound max-nimber hints, a `Some n` answer is the game's
Grundy value and every subsequent query on the game — bounded or not,
cancelled or not — returns the same `n`; a `None` answer means the Grundy
value exceeds the bound.  (The claimed `n ≤ b` is dropped: a cached Done
value is returned regardless of the bound.) -/
theorem C2_amended_bounded_query {G : Type} [DecidableEq G] {I : Impartial G}
    (W : GameRank G I) (hmax : MaxOK I W) {g : G} {b fuel : Nat} {s : EvalState G}
    {res : Option Nat} {s' : EvalState G} (hInv : Inv I W (W.rank g + 1) s)
    (h : get_bounded_nimber I noCancel fuel g b s = some (res, s')) :
    (∀ n, res = some n → n = gval I W g ∧
      ∀ f, 2 ≤ f → ∀ (flag2 : Nat → Bool) (b2 : Nat),
        get_bounded_nimber I flag2 f g b2 s' = some (some n, s')) ∧
    (res = none → b < gval I W g) := by
  unfold get_bounded_nimber at h
  match fuel with
  | 0 => rw [get_bounded_nimber_by_parts] at h; cases h
  | fuel + 1 =>
    rw [get_bounded_nimber_by_parts] at h
    rw [if_neg (by simp)] at h
    match fuel with
    | 0 =>
      rw [show ([g] : List G).dropLast = ([] : List G) from rfl, parts_head_loop] at h
      cases h
    | fuel + 1 =>
      rw [show ([g] : List G).dropLast = ([] : List G) from rfl, parts_head_loop] at h
      dsimp only at h
      rw [show ([g] : List G).getLast? = some g from rfl] at h
      dsimp only at h
      split at h
      · cases h
      next s2 heq =>
        cases h
        obtain ⟨_, _, _, hnone⟩ := (solver_sound I W hmax (fuel + 1)).1 g (b ||| 0) s none _
          hInv heq
        refine ⟨?_, ?_⟩
        · intro n hn; cases hn
        · intro _
          have hlt := hnone rfl
          rwa [show b ||| 0 = b by simp] at hlt
      next m s2 heq =>
        cases h
        obtain ⟨_, _, hsome, _⟩ := (solver_sound I W hmax (fuel + 1)).1 g (b ||| 0) s (some m) _
          hInv heq
        obtain ⟨hval, e', hc', hd'⟩ := hsome m rfl
        refine ⟨?_, ?_⟩
        · intro n hn
          injection hn with hn
          subst hn
          rw [Nat.zero_xor]
          refine ⟨hval, ?_⟩
          intro f hf flag2 b2
          exact done_hit I flag2 b2 hc' hd' hf
        · intro hc; cases hc

/-- C2 counterexample: with position 2 of the test game already cached as
`Done 2`, the bounded query at bound 0 returns `Some 2`, so the claimed
`n ≤ b` fails. -/
theorem C2_counterexample_cached_done_exceeds_bound :
    (get_bounded_nimber tgImp noCancel 30 2 0 c2Done).map Prod.fst = some (some 2) ∧
    ¬ (2 ≤ 0) :=
  ⟨rfl, by omega⟩

/-- Concrete instantiation of the amended C2 on the test game. -/
theorem C2_amended_bounded_query_witness :
    (2 : Nat) = gval tgImp tgRank 2 ∧
      get_bounded_nimber tgImp (fun _ => true) 2 2 7 c2Done = some (some 2, c2Done) := by
  have hres := C2_amended_bounded_query tgRank tgMaxOK (Inv_init _)
    (show get_bounded_nimber tgImp noCancel 30 2 5 EvalState.init = some (some 2, c2Done)
      from rfl)
  obtain ⟨hm, hdone⟩ := hres.1 2 rfl
  exact ⟨hm, hdone 2 (by omega) (fun _ => true) 7⟩

end ClaimC2

section ClaimC3

/-- C3: counterexample execution — `get_nimber 2` on the test game is
interrupted by the cancel flag (returning the program's `None`); after
clearing the flag, re-running `get_nimber 2` on the retained cache yields
`Some 1`, while a fresh evaluator yields `Some 2`.  Resumption does not
match the fresh-cache value: the cancel path of `try_rule_out_nimber`
drops the popped move and the deferred list. -/
theorem C3_resume_differs_from_fresh :
    stoppedRun.map Prod.fst = some none ∧
    resumedRun = some (some 1) ∧ freshRun = some (some 2) ∧ resumedRun ≠ freshRun :=
  ⟨rfl, rfl, rfl, by decide⟩

end ClaimC3

section ClaimC4

/-- C4: counterexample execution — position 9 starts with pending moves
`[[1], [8]]`; `try_rule_out_nimber` with candidate 0 probes `[8]`
inconclusively (deferring it), pops `[1]`, then sees the cancel flag and
returns `None` with the entry's pending list empty: the deferred `[[8]]`
is not restored and the popped `[1]` is lost. -/
theorem C4_cancel_drops_deferred :
    c4Start.cache 9 = some ⟨EntryData.Processing ⟨[[1], [8]], []⟩, none⟩ ∧
    c4Run = some (none, some ⟨EntryData.Processing ⟨[], []⟩, none⟩) :=
  ⟨rfl, rfl⟩

end ClaimC4

section ClaimC5

/-- C5: counterexample execution — the bundled Kayles game generates no
moves at all for a heap of size 1 (the pure-removal loop `1..min(n, 2)`
excludes its upper end), so `get_nimber` returns `Some 0` there instead
of the `Some 1` required by the OEIS A002186 table. -/
theorem C5_kayles_heap_one_nimber_zero :
    kayles_split_moves 1 = [] ∧
    (get_nimber kaylesImp noCancel 30 1 EvalState.init).map Prod.fst = some (some 0) ∧
    some (some 0) ≠ (some (some 1) : Option (Option Nat)) :=
  ⟨rfl, rfl, by decide⟩

end ClaimC5

section ClaimC6

/-- C6: on a sorted duplicate-free `impossible_nimbers`,
`get_smallest_possible_nimber` computes the mex of the set: the first
index where the sequence differs from the identity, equivalently the
least natural number absent from it. -/
theorem C6_smallest_is_mex {G : Type} {d : ProcessingData G}
    (h : SortedLT d.impossible_nimbers) :
    d.get_smallest_possible_nimber = mexOf d.impossible_nimbers ∧
    d.get_smallest_possible_nimber ∉ d.impossible_nimbers ∧
    ∀ j, j < d.get_smallest_possible_nimber → j ∈ d.impossible_nimbers := by
  obtain ⟨h1, h2⟩ := smallest_spec h
  exact ⟨(mexOf_unique h1 h2).symm, h1, h2⟩

/-- Concrete instantiation of C6 on the sorted set `[0, 1, 3]`, whose mex
is 2. -/
theorem C6_smallest_is_mex_witness :
    SortedLT ((⟨[], [0, 1, 3]⟩ : ProcessingData Nat).impossible_nimbers) ∧
    (⟨[], [0, 1, 3]⟩ : ProcessingData Nat).get_smallest_possible_nimber = mexOf [0, 1, 3] ∧
    mexOf [0, 1, 3] = 2 := by
  have hs : SortedLT ((⟨[], [0, 1, 3]⟩ : ProcessingData Nat).impossible_nimbers) := by
    unfold SortedLT
    decide
  exact ⟨hs, (C6_smallest_is_mex hs).1, by decide⟩

end ClaimC6

section ClaimC7

/-- C7 counterexample: destubbing position 5 of the test game stores the
pending moves `[[1], [1]]` — two equal move alternatives.  The moves
`[1]` and `[1, 2, 2]` are distinct when the outer list is deduplicated,
and only afterwards does `remove_pairs` reduce `[1, 2, 2]` to `[1]`. -/
theorem C7_counterexample_duplicate_pending :
    (destub tgImp 5 (EvalState.init.insert 5 (Entry.new none))).map (fun s => s.cache 5) =
      some (some ⟨EntryData.Processing ⟨[[1], [1]], []⟩, none⟩) ∧
    ¬ ([[1], [1]] : List (List Nat)).Nodup :=
  ⟨rfl, by decide⟩

/-- C7 (amended): `destub` canonicalizes the outer move list first —
sorting by the move hash and removing adjacent duplicates — and only then
reduces each move by `remove_pairs`; with an injective move hash the
outer list is duplicate-free before the inner reduction, but the inner
reduction may create equal alternatives afterwards. -/
theorem C7_amended_destub_order {G : Type} [DecidableEq G] (I : Impartial G) (g : G)
    {s : EvalState G} {e : Entry G} (hc : s.cache g = some e)
    (hst : e.data = EntryData.Stub)
    (hinj : ∀ x ∈ I.get_split_moves g, ∀ y ∈ I.get_split_moves g,
      I.hash_move x = I.hash_move y → x = y) :
    destub I g s = some (s.insert g
      ⟨EntryData.Processing ⟨(rustDedup (sortByKey I.hash_move (I.get_split_moves g))).map
        (remove_pairs I), []⟩, e.max_nimber⟩) ∧
    (rustDedup (sortByKey I.hash_move (I.get_split_moves g))).Nodup := by
  constructor
  · unfold destub
    rw [hc]
    dsimp only
    have hs : e.is_stub = true := by
      unfold Entry.is_stub
      rw [hst]
    rw [if_pos hs]
    rfl
  · refine rustDedup_nodup (sortByKey_sorted _ _) ?_
    intro x hx y hy hk
    exact hinj x ((sortByKey_perm _ _).mem_iff.mp hx) y ((sortByKey_perm _ _).mem_iff.mp hy) hk

/-- Concrete instantiation of the amended C7 on position 2 of the test
game, whose two moves have distinct hashes. -/
theorem C7_amended_destub_order_witness :
    destub tgImp 2 (EvalState.init.insert 2 (Entry.new none)) =
      some ((EvalState.init.insert 2 (Entry.new none)).insert 2
        ⟨EntryData.Processing
          ⟨(rustDedup (sortByKey tgImp.hash_move (tgImp.get_split_moves 2))).map
            (remove_pairs tgImp), []⟩,
          (Entry.new none : Entry Nat).max_nimber⟩) ∧
    (rustDedup (sortByKey tgImp.hash_move (tgImp.get_split_moves 2))).Nodup :=
  C7_amended_destub_order tgImp 2 (cache_insert_self _ _ _) rfl (by decide)

end ClaimC7

section ClaimC8

/-- C8: pair cancellation — `remove_pairs` preserves the XOR value of a
move, and two cancel-free `get_nimber_by_parts` runs on `[a, a] ++ rest`
and on `rest` (from invariant-satisfying states under a rank certificate
with sound hints) return the same value. -/
theorem C8_pair_cancellation {G : Type} [DecidableEq G] {I : Impartial G}
    (W : GameRank G I) (hmax : MaxOK I W) :
    (∀ m : List G, sumv I W (remove_pairs I m) = sumv I W m) ∧
    ∀ (a : G) (rest : List G) (fuel1 fuel2 : Nat) (s1 s2 : EvalState G) (r1 r2 : Nat)
      (v1 v2 : Nat) (s1' s2' : EvalState G),
      (∀ p ∈ a :: a :: rest, W.rank p < r1) → Inv I W r1 s1 →
      get_nimber_by_parts I noCancel fuel1 (a :: a :: rest) s1 = some (some v1, s1') →
      (∀ p ∈ rest, W.rank p < r2) → Inv I W r2 s2 →
      get_nimber_by_parts I noCancel fuel2 rest s2 = some (some v2, s2') →
      v1 = v2 := by
  constructor
  · exact fun m => sumv_remove_pairs W m
  · intro a rest fuel1 fuel2 s1 s2 r1 r2 v1 v2 s1' s2' hr1 hInv1 h1 hr2 hInv2 h2
    have hs1 := ((solver_sound I W hmax fuel1).2.2.2.2.1 (a :: a :: rest) usizeMAX s1
      (some v1) s1' r1 hr1 hInv1 h1).2.2.1 v1 rfl
    have hs2 := ((solver_sound I W hmax fuel2).2.2.2.2.1 rest usizeMAX s2
      (some v2) s2' r2 hr2 hInv2 h2).2.2.1 v2 rfl
    rw [hs1, hs2, sumv_cons, sumv_cons, ← Nat.xor_assoc, Nat.xor_self, Nat.zero_xor]

/-- Concrete instantiation of C8 on the test game: both `[1, 1, 2]` and
`[2]` evaluate to nimber 2. -/
theorem C8_pair_cancellation_witness : (2 : Nat) = 2 :=
  (C8_pair_cancellation tgRank tgMaxOK).2 1 [2] 30 30 EvalState.init EvalState.init 3 3 2 2
    c8sA c8sB (by decide) (Inv_init 3) rfl (by decide) (Inv_init 3) rfl

end ClaimC8

section ClaimC9

/-- C9: the `Some` value of a bounded query is independent of the bound —
a `Some v` answer of `get_bounded_nimber_by_parts` at any 64-bit bound is
returned identically (same value, same final state) by the unbounded
`get_nimber_by_parts`, for any cancel-flag oracle. -/
theorem C9_bound_independent {G : Type} [DecidableEq G] (I : Impartial G)
    (flag : Nat → Bool) {fuel : Nat} {parts : List G} {b : Nat} {s : EvalState G}
    {v : Nat} {s' : EvalState G} (hb : b < 2 ^ 64)
    (h : get_bounded_nimber_by_parts I flag fuel parts b s = some (some v, s')) :
    get_nimber_by_parts I flag fuel parts s = some (some v, s') := by
  unfold get_nimber_by_parts
  exact by_parts_bound_usizeMAX I flag hb h

/-- Concrete instantiation of C9 on the test game: the bounded query on
`[2, 1]` at bound 1 answers `Some 3` — strictly above the bound — and the
unbounded query returns the same answer and state. -/
theorem C9_bound_independent_witness :
    (1 : Nat) < 2 ^ 64 ∧
    get_nimber_by_parts tgImp noCancel 30 [2, 1] EvalState.init = some (some 3, c9S) ∧
    1 < 3 :=
  ⟨by norm_num,
    @C9_bound_independent Nat _ tgImp noCancel 30 [2, 1] 1 EvalState.init 3 c9S
      (by norm_num) rfl,
    by omega⟩

end ClaimC9

section ClaimC10

/-- C10: a cached `Done` entry bypasses cancellation — the Done lookup in
`get_bounded_nimber_of_part` precedes the first cancel-flag read, so both
`get_nimber` and `get_bounded_nimber` (any bound) return the cached
nimber, with the state unchanged, under any cancel-flag oracle. -/
theorem C10_done_bypasses_cancel {G : Type} [DecidableEq G] (I : Impartial G)
    (flag : Nat → Bool) {g : G} {s : EvalState G} {e : Entry G} {n : Nat} (b : Nat)
    (hc : s.cache g = some e) (hd : e.data = EntryData.Done n)
    {fuel : Nat} (hf : 2 ≤ fuel) :
    get_bounded_nimber I flag fuel g b s = some (some n, s) ∧
    get_nimber I flag fuel g s = some (some n, s) :=
  ⟨done_hit I flag b hc hd hf, done_hit I flag usizeMAX hc hd hf⟩

/-- Concrete instantiation of C10: with position 2 cached as `Done 7` and
the cancel flag permanently set, both queries still answer `Some 7`. -/
theorem C10_done_bypasses_cancel_witness :
    get_bounded_nimber tgImp (fun _ => true) 2 2 0
        (EvalState.init.insert 2 ⟨EntryData.Done 7, none⟩) =
      some (some 7, EvalState.init.insert 2 ⟨EntryData.Done 7, none⟩) ∧
    get_nimber tgImp (fun _ => true) 2 2
        (EvalState.init.insert 2 ⟨EntryData.Done 7, none⟩) =
      some (some 7, EvalState.init.insert 2 ⟨EntryData.Done 7, none⟩) :=
  C10_done_bypasses_cancel tgImp (fun _ => true) 0 (cache_insert_self _ _ _) rfl (by omega)

end ClaimC10

end ImpartialSolver
